import Mathlib

set_option maxHeartbeats 2000000
set_option maxRecDepth 8000

/-!
Verification development for the SSI core (symbolic source interpreter for a
C-like language).  The code under study consists of a lexer and rewriting
lexeme stream (framework/lex.py), a PEG parse engine and C grammars
(framework/peg.py, framework/miniparse.py), a statement/expression
interpreter (framework/interpreter.py), and a symbolic memory and value
engine (framework/trace.py).  Each Python construct used by the claims is
shallowly embedded below as an executable Lean definition, and the claims
are settled as theorems about those definitions.
-/

/-! ## Lexemes and the lexer loop (framework/lex.py) -/

/-- Model of a `Lexeme`: label, byte span, pseudo flag and surface string.
The surface string is represented as a list of characters.  The back
reference to the owning stream is dropped (it is only reassigned, never
read, in the modelled operations). -/
structure Lexeme where
  label : String
  startIdx : Nat
  endIdx : Nat
  pseudo : Bool
  string : List Char
deriving DecidableEq, Repr

/-- One matched span of the lexer loop of `Lexing.lex`: the winning rule
name, the start byte, and the match length.  Spans for rules whose name
starts with an underscore are skipped whitespace/comments. -/
structure LexSpan where
  name : String
  start : Nat
  len : Nat
deriving DecidableEq, Repr

/-- The loop of `Lexing.lex`.  `m` abstracts the inner longest-match fold
over the compiled rule table: at a given remaining input it yields the name
of the first rule attaining the maximal (positive) match length, together
with that length; `none` models the case where `assert longest_len` fails
because no rule matches a nonempty prefix.  A zero-length winning match is
likewise the failing assertion.  Dropping `n` characters and clamping
`take`/`drop` mirrors Python slicing.  The result records every matched
span, kept or skipped, in order. -/
def lexAll (m : List Char → Option (String × Nat)) :
    Nat → List Char → Nat → Option (List LexSpan)
  | _, [], _ => some []
  | 0, _ :: _, _ => none
  | fuel + 1, c :: s, start =>
    match m (c :: s) with
    | none => none
    | some (name, n) =>
      if n = 0 then none
      else
        match lexAll m fuel ((c :: s).drop n) (start + n) with
        | none => none
        | some rest => some (⟨name, start, n⟩ :: rest)

/-- Original bytes of a span: `full_string[start_idx:end_idx]`. -/
def spanText (full : List Char) (sp : LexSpan) : List Char :=
  (full.drop sp.start).take sp.len

/-- The `Lexeme` object built for a kept span (`pseudo_string` is `None`,
so `pseudo` is false and the surface string is sliced from the file). -/
def mkLexeme (full : List Char) (sp : LexSpan) : Lexeme :=
  ⟨sp.name, sp.start, sp.start + sp.len, false, spanText full sp⟩

/-- Whether a span is kept as a lexeme (`longest_name[0] != "_"`).  An
empty rule name, on which Python would raise from the indexing, is mapped
to `false`; rule tables never contain one. -/
def spanKept (sp : LexSpan) : Bool :=
  match sp.name.data with
  | [] => false
  | c :: _ => c != '_'

/-- Surface string of a kept lexeme, or the skipped original bytes of a
whitespace/comment span. -/
def surfaceOrSkip (full : List Char) (sp : LexSpan) : List Char :=
  if spanKept sp then (mkLexeme full sp).string else spanText full sp

/-- The kept lexemes of a lexing, in order. -/
def keptLexemes (full : List Char) (spans : List LexSpan) : List Lexeme :=
  (spans.filter spanKept).map (mkLexeme full)

theorem lexAll_join (m : List Char → Option (String × Nat)) :
    ∀ (fuel : Nat) (s : List Char) (start : Nat) (full : List Char)
      (spans : List LexSpan), s = full.drop start →
      lexAll m fuel s start = some spans →
      (spans.map (spanText full)).flatten = s := by
  intro fuel
  induction fuel with
  | zero =>
    intro s start full spans hs h
    cases s with
    | nil => simp only [lexAll] at h; cases h; simp
    | cons c cs => simp only [lexAll] at h; cases h
  | succ fuel ih =>
    intro s start full spans hs h
    cases s with
    | nil => simp only [lexAll] at h; cases h; simp
    | cons c cs =>
      simp only [lexAll] at h
      cases hm : m (c :: cs) with
      | none => rw [hm] at h; cases h
      | some p =>
        rw [hm] at h
        obtain ⟨name, n⟩ := p
        by_cases hn : n = 0
        · simp only [hn, if_true] at h; cases h
        · simp only [hn, if_false, if_neg hn] at h
          cases hrec : lexAll m fuel ((c :: cs).drop n) (start + n) with
          | none => rw [hrec] at h; cases h
          | some rest =>
            rw [hrec] at h
            cases h
            have hdrop : (c :: cs).drop n = full.drop (start + n) := by
              rw [hs, List.drop_drop, Nat.add_comm]
            have hrest := ih ((c :: cs).drop n) (start + n) full rest hdrop hrec
            simp only [List.map_cons, List.flatten_cons]
            rw [hrest]
            have hspan : spanText full ⟨name, start, n⟩ = (c :: cs).take n := by
              simp only [spanText, hs]
            rw [hspan, List.take_append_drop]

/-- Claim C3: for every input that the lexer fully tokenises (the loop
succeeds, i.e. every position is matched by some rule), concatenating in
order the original byte spans of all matched tokens — the surface strings
of kept lexemes plus the skipped comment/whitespace spans — reconstructs
the input exactly. -/
theorem lex_reconstructs_input (m : List Char → Option (String × Nat))
    (fuel : Nat) (full : List Char) (spans : List LexSpan)
    (h : lexAll m fuel full 0 = some spans) :
    (spans.map (surfaceOrSkip full)).flatten = full := by
  have heq : spans.map (surfaceOrSkip full) = spans.map (spanText full) := by
    apply List.map_congr_left
    intro sp _
    simp only [surfaceOrSkip, mkLexeme, ite_self]
  rw [heq]
  exact lexAll_join m fuel full 0 full spans (by simp) h

/-- Concrete longest-match function used by the witness: every character is
its own token, spaces under a skipped underscore rule. -/
def lexMatchW : List Char → Option (String × Nat) := fun s =>
  match s with
  | [] => none
  | c :: _ => some (if c = ' ' then "_space" else "tok", 1)

theorem lex_reconstructs_input_witness :
    lexAll lexMatchW 3 ['a', ' ', 'b'] 0 =
      some [⟨"tok", 0, 1⟩, ⟨"_space", 1, 1⟩, ⟨"tok", 2, 1⟩] ∧
    (([⟨"tok", 0, 1⟩, ⟨"_space", 1, 1⟩, (⟨"tok", 2, 1⟩ : LexSpan)].map
      (surfaceOrSkip ['a', ' ', 'b'])).flatten = ['a', ' ', 'b']) :=
  ⟨by decide, lex_reconstructs_input lexMatchW 3 ['a', ' ', 'b'] _ (by decide)⟩

/-! ## The rewriting lexeme stream (Lexing.rewrite) -/

/-- Model of a `Lexing` stream: the rule table is abstracted to its
longest-match function (as fed to `lexAll`), plus the underlying text and
the lexeme list. -/
structure LexStream where
  rules : List Char → Option (String × Nat)
  fullString : List Char
  lexemes : List Lexeme

/-- Length matched by the pattern rule Literal, regex ([\x7b][\x7b])|([\x7d][\x7d]):
two identical braces. -/
def litLen : List Char → Nat
  | '\x7b' :: '\x7b' :: _ => 2
  | '\x7d' :: '\x7d' :: _ => 2
  | _ => 0

/-- Length of the maximal brace-free prefix (pattern rule String, regex
[^\x7b\x7d]*; may be zero). -/
def nonBraceLen (s : List Char) : Nat :=
  (s.takeWhile (fun c => !(c == '\x7b' || c == '\x7d'))).length

/-- Length matched by the lazy pattern rule Sub, regex [\x7b][^\x7b\x7d]*?[\x7d]:
an opening brace, a brace-free run, a closing brace. -/
def subLen : List Char → Nat
  | [] => 0
  | c :: rest =>
    if c = '\x7b' then
      match rest.drop (nonBraceLen rest) with
      | '\x7d' :: _ => nonBraceLen rest + 2
      | _ => 0
    else 0

/-- The longest-match fold of `Lexing.lex` instantiated at the three
pattern rules, in table order Literal, String, Sub, with strict
improvement (`longest_len < result.end()`). -/
def patternMatch (s : List Char) : Option (String × Nat) :=
  let cands : List (String × Nat) :=
    [("Literal", litLen s), ("String", nonBraceLen s), ("Sub", subLen s)]
  let best := cands.foldl (fun acc nl => if acc.2 < nl.2 then nl else acc) ("", 0)
  if best.2 = 0 then none else some best

/-- A substitution value of `Lexing.rewrite`: either a string (inlined into
re-lexed text) or a list of lexemes (spliced verbatim). -/
inductive SubstVal where
  | strv (s : List Char)
  | lexs (ls : List Lexeme)

/-- The String-part branch of `Lexing.rewrite`: re-lex literal pattern text
with the stream's own rules, then overwrite every produced lexeme's span to
start at byte `idx` with `end_idx = idx + 1`. -/
def relexPatch (rules : List Char → Option (String × Nat)) (text : List Char)
    (idx : Nat) : Option (List Lexeme) :=
  match lexAll rules text.length text 0 with
  | none => none
  | some spans =>
    some ((keptLexemes text spans).map
      (fun l => { l with startIdx := idx, endIdx := idx + 1 }))

/-- The loop over parsed pattern parts in `Lexing.rewrite`, accumulating
`new_lexemes` (the `acc` argument).  `anchor` is `old_range[-1].start_idx`.
A Literal part becomes a String part holding its first character; a Sub
part with a string substitution becomes a String part holding that string;
String parts are re-lexed and re-anchored at the start byte of the last
accumulated lexeme (or at `anchor` when none); a Sub part with a lexeme
substitution is spliced verbatim.  `none` models a KeyError on a missing
substitution or a failed re-lex assertion. -/
def processParts (rules : List Char → Option (String × Nat))
    (subs : List (List Char × SubstVal)) (anchor : Nat) :
    List Lexeme → List Lexeme → Option (List Lexeme)
  | acc, [] => some acc
  | acc, part :: parts =>
    let p1 : Lexeme :=
      if part.label = "Literal" then
        { part with label := "String", string := part.string.take 1 }
      else part
    let idx : Nat := (acc.getLast?.map Lexeme.startIdx).getD anchor
    if p1.label = "Sub" then
      match List.lookup (p1.string.drop 1).dropLast subs with
      | none => none
      | some (.strv str) =>
        match relexPatch rules str idx with
        | none => none
        | some lexed => processParts rules subs anchor (acc ++ lexed) parts
      | some (.lexs ls) => processParts rules subs anchor (acc ++ ls) parts
    else if p1.label = "String" then
      match relexPatch rules p1.string idx with
      | none => none
      | some lexed => processParts rules subs anchor (acc ++ lexed) parts
    else processParts rules subs anchor acc parts

/-- `Lexeme.next_lexeme` over the stream's list: `none` when the lexeme is
the stream's last element (Python returns `None`) or absent (Python's
`list.index` raises). -/
def nextLexeme (ls : List Lexeme) (x : Lexeme) : Option Lexeme :=
  if ls.getLast? = some x then none
  else match ls.indexOf? x with
    | none => none
    | some i => ls.get? (i + 1)

/-- The lexeme at which the kept suffix starts: `old_range[-1]`'s successor
when `inclusive`, `old_range[-1]` itself otherwise. -/
def endOfRange (ls : List Lexeme) (last : Lexeme) (inclusive : Bool) :
    Option Lexeme :=
  if inclusive then nextLexeme ls last else some last

/-- `Lexing.rewrite` with a string pattern: lex the pattern with the
Literal/String/Sub rules, expand the parts into `new_lexemes`, and splice
them between `lexemes[:lexemes.index(old_range[0])]` and
`lexemes[lexemes.index(end):]`.  Returns the updated stream and the
inserted lexemes; `none` models the Python exceptions (empty range,
failed pattern lex, KeyError, ValueError from a failed index). -/
def rewriteStr (lx : LexStream) (oldRange : List Lexeme) (pattern : List Char)
    (subs : List (List Char × SubstVal)) (inclusive : Bool) :
    Option (LexStream × List Lexeme) :=
  match oldRange.head?, oldRange.getLast? with
  | some first, some last =>
    match lexAll patternMatch pattern.length pattern 0 with
    | none => none
    | some spans =>
      match processParts lx.rules subs last.startIdx []
          (keptLexemes pattern spans) with
      | none => none
      | some newLexemes =>
        match endOfRange lx.lexemes last inclusive with
        | none => none
        | some endLex =>
          match lx.lexemes.indexOf? first, lx.lexemes.indexOf? endLex with
          | some i, some j =>
            some ({ lx with
                    lexemes :=
                      lx.lexemes.take i ++ newLexemes ++ lx.lexemes.drop j },
                  newLexemes)
          | _, _ => none
  | _, _ => none

/-- Claim C9: `Lexing.rewrite` only changes the replaced span.  On success
the new lexeme list is exactly the prefix strictly before `old_range[0]`,
then the inserted lexemes, then the suffix from the end of the replaced
range onward — the same lexemes in the same relative order — and the
stream's `full_string` and `rules` are unchanged. -/
theorem rewrite_frame (lx : LexStream) (oldRange : List Lexeme)
    (pattern : List Char) (subs : List (List Char × SubstVal))
    (inclusive : Bool) (lx' : LexStream) (newLexemes : List Lexeme)
    (first last endLex : Lexeme) (i j : Nat)
    (hf : oldRange.head? = some first) (hl : oldRange.getLast? = some last)
    (he : endOfRange lx.lexemes last inclusive = some endLex)
    (hi : lx.lexemes.indexOf? first = some i)
    (hj : lx.lexemes.indexOf? endLex = some j)
    (h : rewriteStr lx oldRange pattern subs inclusive =
      some (lx', newLexemes)) :
    lx'.lexemes = lx.lexemes.take i ++ newLexemes ++ lx.lexemes.drop j ∧
    lx'.fullString = lx.fullString ∧ lx'.rules = lx.rules := by
  unfold rewriteStr at h
  rw [hf, hl] at h
  dsimp only at h
  cases hspans : lexAll patternMatch pattern.length pattern 0 with
  | none => rw [hspans] at h; cases h
  | some spans =>
    rw [hspans] at h
    dsimp only at h
    cases hpp : processParts lx.rules subs last.startIdx []
        (keptLexemes pattern spans) with
    | none => rw [hpp] at h; cases h
    | some nl =>
      rw [hpp] at h
      dsimp only at h
      rw [he] at h
      dsimp only at h
      rw [hi, hj] at h
      dsimp only at h
      cases h
      exact ⟨rfl, rfl, rfl⟩

/-- Concrete rules for the rewrite fixtures: identifier runs, a one-byte
op rule for semicolons, spaces skipped. -/
def rulesW : List Char → Option (String × Nat) := fun s =>
  match s with
  | [] => none
  | c :: _ =>
    if c = ' ' then some ("_space", 1)
    else if c = ';' then some ("op", 1)
    else some ("ident", (s.takeWhile (fun ch => !(ch == ' ' || ch == ';'))).length)

def l0W : Lexeme := ⟨"ident", 0, 2, false, ['a', 'b']⟩

def l1W : Lexeme := ⟨"ident", 3, 5, false, ['c', 'd']⟩

def l2W : Lexeme := ⟨"op", 6, 7, false, [';']⟩

def lxW : LexStream := ⟨rulesW, ['a', 'b', ' ', 'c', 'd', ' ', ';'], [l0W, l1W, l2W]⟩

/-- The single lexeme produced by rewriting the range [l0W, l1W] of `lxW`
with the literal pattern "x". -/
def newLexW : Lexeme := ⟨"ident", 3, 4, false, ['x']⟩

theorem rewrite_frame_witness :
    rewriteStr lxW [l0W, l1W] ['x'] [] true =
      some ({ lxW with lexemes := [newLexW, l2W] }, [newLexW]) ∧
    (([newLexW, l2W] : List Lexeme) =
        lxW.lexemes.take 0 ++ [newLexW] ++ lxW.lexemes.drop 2 ∧
      lxW.fullString = lxW.fullString ∧ lxW.rules = lxW.rules) :=
  ⟨rfl, rewrite_frame lxW [l0W, l1W] ['x'] [] true _ [newLexW] l0W l1W l2W 0 2
    rfl rfl rfl rfl rfl rfl⟩

/-- Counterexample to claim C5 as stated: rewriting the two-lexeme range
[l0W, l1W] (range start byte 0) with the literal pattern "x" produces the
lexeme `newLexW`, which has `pseudo = false` (the re-lexed lexemes are
built by the ordinary constructor, not the pseudo one), start byte 3 (the
start of the range's last lexeme, not of the range), and a one-byte span
(`end_idx = start_idx + 1`, not zero-width). -/
theorem rewrite_literal_lexeme_cex :
    (rewriteStr lxW [l0W, l1W] ['x'] [] true).map Prod.snd = some [newLexW] ∧
    l0W.startIdx = 0 ∧
    ¬(newLexW.pseudo = true ∧ newLexW.startIdx = l0W.startIdx ∧
      newLexW.endIdx = newLexW.startIdx) := by
  decide

/-- Claim C5 (amended): each lexeme produced by re-lexing literal pattern
text in `Lexing.rewrite` is a synthesised lexeme whose `pseudo` flag is
false, anchored at the start byte of the previously inserted lexeme —
initially the start byte of the *last* lexeme of the replaced range — and
occupying a one-byte span (`end_idx = start_idx + 1`) just before the
lexemes it replaced. -/
theorem rewrite_literal_lexeme_spans (rules : List Char → Option (String × Nat))
    (text : List Char) (idx : Nat) (lexed : List Lexeme)
    (h : relexPatch rules text idx = some lexed) :
    ∀ l ∈ lexed, l.pseudo = false ∧ l.startIdx = idx ∧ l.endIdx = idx + 1 := by
  unfold relexPatch at h
  cases hs : lexAll rules text.length text 0 with
  | none => rw [hs] at h; cases h
  | some spans =>
    rw [hs] at h
    cases h
    intro l hl
    simp only [keptLexemes, List.mem_map, List.mem_filter] at hl
    obtain ⟨lx0, ⟨sp0, hsp0, rfl⟩, rfl⟩ := hl
    exact ⟨rfl, rfl, rfl⟩

theorem rewrite_literal_lexeme_spans_witness :
    relexPatch rulesW ['x'] 3 = some [newLexW] ∧
    (newLexW.pseudo = false ∧ newLexW.startIdx = 3 ∧ newLexW.endIdx = 3 + 1) :=
  ⟨by decide, rewrite_literal_lexeme_spans rulesW ['x'] 3 [newLexW] (by decide)
    newLexW (by decide)⟩

/-! ## The PEG engine (framework/peg.py) and C statement grammar
(framework/miniparse.py) -/

/-- Model of a parse tree.  Python represents internal nodes as
`[label, child, ...]`; two node shapes (`bal`, `skipto`) hold a raw list of
lexemes as one child, modelled by the `lexs` constructor. -/
inductive PTree where
  | leaf (l : Lexeme)
  | node (label : String) (children : List PTree)
  | lexs (ls : List Lexeme)

/-- Python truthiness of a parse-tree child (`if child:`): a lexeme and a
labelled node (a nonempty list) are truthy; a raw lexeme list is truthy iff
nonempty. -/
def PTree.truthy : PTree → Bool
  | .leaf _ => true
  | .node _ _ => true
  | .lexs ls => !ls.isEmpty

/-- Result of `PEG.parse`: Python returns `(False, False)` on failure and
`(tree_or_None, remainder)` on success; `None` (from lookaheads and failed
optionals) is distinguished from a tree, hence the inner `Option`. -/
inductive PRes where
  | fail
  | ok (t : Option PTree) (rest : List Lexeme)

/-- Grammar expressions, pre-parsed from their S-expression spellings.  The
last four constructors are the explicit loop states of `PEG.parse`'s
`for`/`while` loops over subexpression lists (sequence, optional, ordered
choice, and the skipto scan), which lets the whole parser be one function
structurally recursive on fuel. -/
inductive PExpr where
  | str (s : String)
  | kind (lbl : String)
  | dot
  | opt (es : List PExpr)
  | choice (es : List PExpr)
  | seq (es : List PExpr)
  | ref (name : String)
  | andP (e : PExpr)
  | notP (e : PExpr)
  | skipto (es : List PExpr)
  | balanced (parens : List String)
  | seqRun (label : String) (es : List PExpr) (acc : List PTree)
  | optRun (orig : List Lexeme) (es : List PExpr) (acc : List PTree)
  | choiceRun (es : List PExpr)
  | skiptoRun (e : PExpr) (i : Nat)

/-- `skipped_to or []` from the skipto case. -/
def pyOr (t : Option PTree) : PTree :=
  match t with
  | some tr => tr
  | none => .lexs []

/-- `if child: node.append(child)` (children are accumulated reversed). -/
def appendTruthy (acc : List PTree) (t : Option PTree) : List PTree :=
  match t with
  | none => acc
  | some tr => if tr.truthy then tr :: acc else acc

/-- The scan of `find_balance`: Python walks `lexemes[1:]` updating depth
(close before open) and returns the index reaching depth zero. -/
def findBalanceAux (popen pclose : String) : List Lexeme → Nat → Int → Option Nat
  | [], _, _ => none
  | l :: rest, i, depth =>
    let d1 : Int := if l.string = pclose.data then depth - 1 else depth
    let d2 : Int := if l.string = popen.data then d1 + 1 else d1
    if d2 = 0 then some i else findBalanceAux popen pclose rest (i + 1) d2

/-- `find_balance(lexemes, parens)`: `none` models the Python `False`. -/
def findBalance (lexemes : List Lexeme) (popen pclose : String) : Option Nat :=
  match lexemes with
  | [] => none
  | l0 :: rest =>
    if l0.string = popen.data then findBalanceAux popen pclose rest 1 1
    else none

/-- Balanced-group skipping inside skipto: try `()`, then braces, then
square brackets, as in the source. -/
def firstBalance (lexemes : List Lexeme) : Option Nat :=
  match findBalance lexemes "(" ")" with
  | some c => some c
  | none =>
    match findBalance lexemes "\x7b" "\x7d" with
    | some c => some c
    | none => findBalance lexemes "[" "]"

/-- `PEG.parse`.  Rules are an association list (the Python rules dict); a
missing rule (Python `KeyError`) and fuel exhaustion are both `.fail`.
The fuel only bounds recursion depth; every concrete theorem below supplies
enough of it. -/
def pegParse (rules : List (String × List PExpr)) : Nat → PExpr → List Lexeme → PRes
  | 0, _, _ => .fail
  | _ + 1, .str s, lexemes =>
    match lexemes with
    | l :: rest => if l.string = s.data then .ok (some (.leaf l)) rest else .fail
    | [] => .fail
  | _ + 1, .kind lbl, lexemes =>
    match lexemes with
    | l :: rest => if l.label = lbl then .ok (some (.leaf l)) rest else .fail
    | [] => .fail
  | _ + 1, .dot, lexemes =>
    match lexemes with
    | l :: rest => .ok (some (.leaf l)) rest
    | [] => .fail
  | fuel + 1, .opt es, lexemes => pegParse rules fuel (.optRun lexemes es []) lexemes
  | _ + 1, .optRun _ [] acc, lexemes => .ok (some (.node "?" acc.reverse)) lexemes
  | fuel + 1, .optRun orig (e :: es) acc, lexemes =>
    match pegParse rules fuel e lexemes with
    | .fail => .ok none orig
    | .ok t rest => pegParse rules fuel (.optRun orig es (appendTruthy acc t)) rest
  | fuel + 1, .choice es, lexemes => pegParse rules fuel (.choiceRun es) lexemes
  | _ + 1, .choiceRun [], _ => .fail
  | fuel + 1, .choiceRun (e :: es), lexemes =>
    match pegParse rules fuel e lexemes with
    | .fail => pegParse rules fuel (.choiceRun es) lexemes
    | r => r
  | fuel + 1, .seq es, lexemes => pegParse rules fuel (.seqRun "seq" es []) lexemes
  | fuel + 1, .ref name, lexemes =>
    match List.lookup name rules with
    | none => .fail
    | some body => pegParse rules fuel (.seqRun name body []) lexemes
  | _ + 1, .seqRun lbl [] acc, lexemes => .ok (some (.node lbl acc.reverse)) lexemes
  | fuel + 1, .seqRun lbl (e :: es) acc, lexemes =>
    match pegParse rules fuel e lexemes with
    | .fail => .fail
    | .ok t rest => pegParse rules fuel (.seqRun lbl es (appendTruthy acc t)) rest
  | fuel + 1, .andP e, lexemes =>
    match pegParse rules fuel (.seq [e]) lexemes with
    | .fail => .fail
    | .ok _ _ => .ok none lexemes
  | fuel + 1, .notP e, lexemes =>
    match pegParse rules fuel (.seq [e]) lexemes with
    | .fail => .ok none lexemes
    | .ok _ _ => .fail
  | fuel + 1, .skipto es, lexemes =>
    match es with
    | [] => .fail
    | [e] => pegParse rules fuel (.skiptoRun e 0) lexemes
    | es => pegParse rules fuel (.skiptoRun (.seq es) 0) lexemes
  | fuel + 1, .skiptoRun e i, lexemes =>
    if i ≤ lexemes.length then
      match pegParse rules fuel e (lexemes.drop i) with
      | .ok t rest =>
        .ok (some (.node "skipto" [.lexs (lexemes.take i), pyOr t])) rest
      | .fail =>
        match firstBalance (lexemes.drop i) with
        | some c => pegParse rules fuel (.skiptoRun e (i + c + 1)) lexemes
        | none => pegParse rules fuel (.skiptoRun e (i + 1)) lexemes
    else .fail
  | _ + 1, .balanced parens, lexemes =>
    match (match parens with
           | [] => some ("(", ")")
           | [p] => if p = "rev" then some (")", "(") else none
           | a :: b :: _ => some (a, b)) with
    | none => .fail
    | some (po, pc) =>
      match findBalance lexemes po pc with
      | none => .fail
      | some ci =>
        match lexemes.get? ci with
        | none => .fail
        | some lc =>
          .ok (some (.node "bal"
                [.leaf (lexemes.headD lc), .lexs ((lexemes.drop 1).take (ci - 1)),
                 .leaf lc]))
            (lexemes.drop (ci + 1))

/-- The statement grammar of `parse_some_cf`, rule for rule (the rule
bodies are the S-expression strings of the source, pre-parsed into
`PExpr`). -/
def cfRules : List (String × List PExpr) :=
  [("Block", [.balanced ["\x7b", "\x7d"]]),
   ("EndBlock", [.str "\x7d"]),
   ("Body", [.choice [.ref "Block", .ref "Statement"]]),
   ("IfStmt", [.str "if", .balanced [], .ref "Body",
               .opt [.str "else", .ref "Body"]]),
   ("DoWhile", [.str "do", .ref "Body", .str "while", .balanced [], .str ";"]),
   ("While", [.str "while", .balanced [], .ref "Body"]),
   ("For", [.str "for", .balanced [], .ref "Body"]),
   ("Switch", [.str "switch", .balanced [], .ref "Body"]),
   ("Case", [.choice [.str "case", .str "default"], .skipto [.str ":"],
             .ref "Statement"]),
   ("Label", [.kind "ident", .str ":", .ref "Statement"]),
   ("Goto", [.str "goto", .kind "ident", .str ";"]),
   ("GotoITE", [.str "goto_ite", .balanced [], .kind "ident", .kind "ident",
                .str ";"]),
   ("Break", [.str "break", .str ";"]),
   ("Continue", [.str "continue", .str ";"]),
   ("Return", [.str "return", .skipto [.str ";"]]),
   ("Preproc", [.kind "preproc"]),
   ("Quals", [.choice [.kind "ident", .str "*"], .opt [.ref "Quals"]]),
   ("Function", [.notP (.choice [.str "if", .str "while", .str "for"]),
                 .opt [.ref "Quals"], .balanced [], .notP (.str ";"),
                 .balanced ["\x7b", "\x7d"]]),
   ("Line", [.skipto [.str ";"]]),
   ("Statement", [.choice [.ref "IfStmt", .ref "DoWhile", .ref "While",
     .ref "For", .ref "Switch", .ref "Case", .ref "Label", .ref "Goto",
     .ref "GotoITE", .ref "Break", .ref "Continue", .ref "Return",
     .ref "Function", .ref "Block", .ref "EndBlock", .ref "Preproc",
     .ref "Line"]])]

/-- `parse_some_cf(lexemes)`, with explicit fuel. -/
def parseSomeCF (fuel : Nat) (lexemes : List Lexeme) : PRes :=
  pegParse cfRules fuel (.ref "Statement") lexemes

/-- Label of the inner statement node of a successful `parse_some_cf`
result (`tree[1][0]` in Python). -/
def stmtLabel : PRes → Option String
  | .ok (some (.node "Statement" (.node l _ :: _))) _ => some l
  | _ => none

/-- The length of the remainder of a parse result (tokens NOT consumed). -/
def remainderLen : PRes → Option Nat
  | .ok _ rest => some rest.length
  | .fail => none

/-- For a result of the `balanced` combinator: the number of tokens of the
inner span of the `[bal, open, inner, close]` node. -/
def balInnerLen : PRes → Option Nat
  | .ok (some (.node "bal" [.leaf _, .lexs inner, .leaf _])) _ =>
    some inner.length
  | _ => none

/-- Outcome skeleton of `Interpreter.interpret`'s dispatch. -/
inductive StmtOutcome where
  | handled (label : String)
  | lowered (label : String)
  | notImplementedError
deriving DecidableEq, Repr

/-- The dispatch structure of `Interpreter.interpret`: which branch of the
`if`/`elif` chain on `tree[0]` a parsed statement reaches.  The branch
bodies are abstracted to whether the construct is interpreted directly
(`handled`) or lowered by `fancy_rewrite` into `goto_ite` plus labels
(`lowered`); a tree whose label matches no branch reaches the final
`raise NotImplementedError`.  The `Statement` branch recurses into
`tree[1]`; the fuel bounds that recursion (`none` on exhaustion, which
adequate fuel avoids). -/
def interpretOutcome : Nat → PTree → Option StmtOutcome
  | 0, _ => none
  | fuel + 1, t =>
    match t with
    | .node "Function" _ => some (.handled "Function")
    | .node "Preproc" _ => some (.handled "Preproc")
    | .node "Statement" (c :: _) => interpretOutcome fuel c
    | .node "Label" _ => some (.handled "Label")
    | .node "Return" _ => some (.handled "Return")
    | .node "GotoITE" _ => some (.handled "GotoITE")
    | .node "Goto" _ => some (.lowered "Goto")
    | .node "For" _ => some (.lowered "For")
    | .node "While" _ => some (.lowered "While")
    | .node "IfStmt" _ => some (.lowered "IfStmt")
    | .node "Block" _ => some (.handled "Block")
    | .node "EndBlock" _ => some (.handled "EndBlock")
    | .node "Line" _ => some (.handled "Line")
    | .node "Switch" _ => some (.lowered "Switch")
    | _ => some .notImplementedError

/-- Dispatch outcome of the statement parsed at the head of the stream. -/
def outcomeOfParse (fuel : Nat) (r : PRes) : Option StmtOutcome :=
  match r with
  | .ok (some t) _ => interpretOutcome fuel t
  | _ => none

/-- Shorthand for constructing concrete input lexemes. -/
def tok (lbl s : String) (i : Nat) : Lexeme := ⟨lbl, i, i + s.length, false, s.data⟩

/-- The token stream of `do x ; while ( c ) ;`. -/
def doWhileLexemes : List Lexeme :=
  [tok "ident" "do" 0, tok "ident" "x" 3, tok "op" ";" 5, tok "ident" "while" 7,
   tok "op" "(" 13, tok "ident" "c" 15, tok "op" ")" 17, tok "op" ";" 19]

/-- The seven-token stream of `( a ( b ) c )`. -/
def balParenLexemes : List Lexeme :=
  [tok "op" "(" 0, tok "ident" "a" 2, tok "op" "(" 4, tok "ident" "b" 6,
   tok "op" ")" 8, tok "ident" "c" 10, tok "op" ")" 12]

/-- Counterexample to claim C6 as stated: parsing `(balanced)` against the
seven-token input `( a ( b ) c )` yields an inner span of five tokens and
consumes all seven tokens (empty remainder), not an inner span of four
tokens with six consumed. -/
theorem balanced_example_cex :
    balInnerLen (pegParse [] 5 (.balanced []) balParenLexemes) = some 5 ∧
    remainderLen (pegParse [] 5 (.balanced []) balParenLexemes) = some 0 ∧
    ¬(balInnerLen (pegParse [] 5 (.balanced []) balParenLexemes) = some 4 ∧
      remainderLen (pegParse [] 5 (.balanced []) balParenLexemes) = some 1) := by
  decide

/-- Claim C6 (amended): parsing `(balanced)` against the seven-token input
`( a ( b ) c )` succeeds, returning a `[bal, open, inner, close]` node
whose inner span has five tokens (`a ( b ) c`), and consumes all seven
tokens of the input. -/
theorem balanced_example :
    pegParse [] 5 (.balanced []) balParenLexemes =
      .ok (some (.node "bal"
        [.leaf (tok "op" "(" 0),
         .lexs [tok "ident" "a" 2, tok "op" "(" 4, tok "ident" "b" 6,
                tok "op" ")" 8, tok "ident" "c" 10],
         .leaf (tok "op" ")" 12)])) [] ∧
    balInnerLen (pegParse [] 5 (.balanced []) balParenLexemes) = some 5 ∧
    remainderLen (pegParse [] 5 (.balanced []) balParenLexemes) = some 0 :=
  ⟨rfl, by decide, by decide⟩

/-- Counterexample to claim C2 as stated: the token stream of
`do x ; while ( c ) ;` parses to a `DoWhile` statement, but dispatching it
through `Interpreter.interpret` reaches `raise NotImplementedError` — the
statement is not lowered to `goto_ite` plus labels (and its body is never
executed). -/
theorem doWhile_cex :
    stmtLabel (parseSomeCF 60 doWhileLexemes) = some "DoWhile" ∧
    remainderLen (parseSomeCF 60 doWhileLexemes) = some 0 ∧
    outcomeOfParse 5 (parseSomeCF 60 doWhileLexemes) =
      some .notImplementedError ∧
    outcomeOfParse 5 (parseSomeCF 60 doWhileLexemes) ≠
      some (.lowered "DoWhile") := by
  decide

/-- Claim C2 (amended): a do-while statement reached by the statement
interpreter parses to a `DoWhile` node, but `Interpreter.interpret` has no
`DoWhile` branch, so interpretation reaches `raise NotImplementedError`:
the statement is not lowered to `goto_ite` plus labels and its body is not
executed. -/
theorem doWhile_not_lowered (fuel : Nat) (cs rest : List PTree) :
    interpretOutcome (fuel + 2)
        (.node "Statement" (.node "DoWhile" cs :: rest)) =
      some .notImplementedError ∧
    stmtLabel (parseSomeCF 60 doWhileLexemes) = some "DoWhile" ∧
    outcomeOfParse 5 (parseSomeCF 60 doWhileLexemes) =
      some .notImplementedError :=
  ⟨rfl, by decide, by decide⟩

/-! ## The symbolic memory and value engine (framework/trace.py) -/

mutual
/-- Model of a `Value`: payload, concreteness flag, the forwarding pointer
`canonical` (`none` models `self.canonical is self`; reading always follows
one hop, as Python's `self.canonical.value` does), and the `recursive_mem`
flag.  Explanations are diagnostics only and are dropped. -/
inductive Value where
  | mk (payload : Payload) (concrete : Bool) (canonical : Option Value)
       (recursiveMem : Bool)

/-- Payloads a `Value` holds in the modelled operations: concrete integers,
Python booleans (results of comparison operators), strings, a handle to a
memory node (identified by its address, the model's notion of an object
reference), the list `["opaque", id]`, a deferred expression
`[operator, v1, ...]` (the operator is the operator string that
`Trace.emit_` eval-s), the summary list built by `Memref.get_value`
(`[self.value, (coord, subvalue), ...]`; the head and the subvalues may be
Python `None`), and the Python list concatenation `a + b` of two
list-shaped payloads (produced when `operate` applies `+` to two concrete
list values). -/
inductive Payload where
  | int (n : Int)
  | pybool (b : Bool)
  | strv (s : String)
  | memref (addr : List Int)
  | opq (id : Nat)
  | deferOp (op : String) (args : List Value)
  | summary (head : Option Value) (elems : List (Int × Option Value))
  | pyconcat (a b : Payload)
end

def Value.payload : Value → Payload
  | .mk p _ _ _ => p

def Value.concrete : Value → Bool
  | .mk _ c _ _ => c

def Value.canonical : Value → Option Value
  | .mk _ _ cn _ => cn

def Value.recursiveMem : Value → Bool
  | .mk _ _ _ r => r

/-- `self.canonical.value` (one forwarding hop, as in the source). -/
def Value.canonPayload (v : Value) : Payload :=
  match v.canonical with
  | some c => c.payload
  | none => v.payload

/-- `self.canonical.concrete`. -/
def Value.canonConcrete (v : Value) : Bool :=
  match v.canonical with
  | some c => c.concrete
  | none => v.concrete

/-- Overwrite the forwarding pointer (`self.canonical = ...`). -/
def Value.setCanon (v : Value) (c : Value) : Value :=
  .mk v.payload v.concrete (some c) v.recursiveMem

/-- Set the `recursive_mem` flag (done after `Value.__init__`). -/
def Value.setRecMem (v : Value) : Value :=
  .mk v.payload v.concrete v.canonical true

/-- Model of a `Memref` node: address, optional scalar value (the root is
created with value `None`), and the sparse ordered children list.  The
parent back-pointer is replaced by paths from the root. -/
inductive Memref where
  | mk (address : List Int) (value : Option Value) (children : List Memref)

def Memref.address : Memref → List Int
  | .mk a _ _ => a

def Memref.value : Memref → Option Value
  | .mk _ v _ => v

def Memref.children : Memref → List Memref
  | .mk _ _ cs => cs

/-- `self.address[-1]` (defaulting to 0 on the root's empty address, which
the engine never asks for). -/
def Memref.lastCoord (m : Memref) : Int :=
  m.address.getLast?.getD 0

/-- Ghost record of a constructed `Value`: the `(payload, concrete)` pair
checked by the assertion in `Value.__init__`. -/
structure ValRec where
  payload : Payload
  concrete : Bool

/-- State of a `Trace`: the uid counter, the memory tree, the field-offset
table (field name to the assigned small integer), and a ghost log of every
constructed Value's `(payload, concrete)` pair (newest first). -/
structure STrace where
  counter : Nat
  memory : Memref
  offsets : List (String × Nat)
  log : List ValRec

/-- `Trace.__init__`: counter 0, root `Memref(None, tuple(), None)`. -/
def initTrace : STrace := ⟨0, .mk [] none [], [], []⟩

/-- `Value.__init__` (with `canonical = self`, `recursive_mem = False`),
ghost-logging the constructed pair. -/
def STrace.newValue (s : STrace) (p : Payload) (c : Bool) : Value × STrace :=
  (.mk p c none false, { s with log := ⟨p, c⟩ :: s.log })

/-- `Trace.uid`. -/
def STrace.uid (s : STrace) : Nat × STrace :=
  (s.counter, { s with counter := s.counter + 1 })

/-- `Trace.opaque()`: `Value(["opaque", self.uid()], False, self)`. -/
def STrace.mkOpq (s : STrace) : Value × STrace :=
  let (i, s') := s.uid
  s'.newValue (.opq i) false

/-- Python tuple comparison `<` on integer tuples (lexicographic, a proper
prefix is smaller). -/
def tupLt : List Int → List Int → Bool
  | [], [] => false
  | [], _ :: _ => true
  | _ :: _, [] => false
  | x :: xs, y :: ys => if x < y then true else if y < x then false else tupLt xs ys

/-- The scan loop of `Memref.child`: the first child whose address equals
the request is returned; otherwise the loop breaks at the first child with
a greater address and the insertion index is one before it (that is, the
request's sorted position). -/
def childScan : List Memref → List Int → Sum Memref Nat
  | [], _ => .inr 0
  | c :: cs, addr =>
    if c.address = addr then .inl c
    else if tupLt addr c.address then .inr 0
    else
      match childScan cs addr with
      | .inl c' => .inl c'
      | .inr i => .inr (i + 1)

/-- `Memref.child(address)`: return the existing child at `address` or
insert a fresh `Memref` holding a new opaque Value at the sorted position.
Returns the child, the updated node, and the updated state; `none` models
the failing `assert address[:-1] == self.address`. -/
def Memref.childAddr (m : Memref) (addr : List Int) (s : STrace) :
    Option (Memref × Memref × STrace) :=
  if addr.dropLast = m.address then
    match childScan m.children addr with
    | .inl c => some (c, m, s)
    | .inr i =>
      let (ov, s') := s.mkOpq
      let fresh : Memref := .mk addr (some ov) []
      some (fresh, .mk m.address m.value (m.children.insertIdx i fresh), s')
  else none

/-- `Memref.append`: one past the last child, or child 0 of the node's own
address when there are no children (`children[-1] + 1` is pointer addition,
which is `parent.child` of the shifted address). -/
def Memref.appendOp (m : Memref) (s : STrace) :
    Option (Memref × Memref × STrace) :=
  match m.children.getLast? with
  | some c => m.childAddr (c.address.dropLast ++ [c.lastCoord + 1]) s
  | none => m.childAddr (m.address ++ [0]) s

/-- Navigate from a node along a coordinate path (children looked up by
address; Python instead holds direct object references), apply `f` to the
target, and write the updated target back into each parent's children list.
`f` sees the trace state for its counter and log but must not touch the
memory root (the caller reinstalls the updated tree); it returns the
updated node, auxiliary data, and the updated state. -/
def modifyAtAux (f : Memref → STrace → Option (Memref × α × STrace)) :
    List Int → Memref → STrace → Option (Memref × α × STrace)
  | [], m, s => f m s
  | k :: rest, m, s =>
    match m.children.find? (fun c => c.address = m.address ++ [k]) with
    | none => none
    | some c =>
      match modifyAtAux f rest c s with
      | none => none
      | some (c', a, s') =>
        some (.mk m.address m.value
          (m.children.map (fun x => if x.address = c.address then c' else x)),
          a, s')

/-- Run a node operation at a path inside the trace's memory tree. -/
def STrace.atPath (s : STrace) (path : List Int)
    (f : Memref → STrace → Option (Memref × α × STrace)) :
    Option (α × STrace) :=
  match modifyAtAux f path s.memory s with
  | none => none
  | some (root', a, s') => some (a, { s' with memory := root' })

/-- Read-only navigation to the node with the given address (used by loads,
which do not mutate the tree). -/
def nodeAt : List Int → Memref → Option Memref
  | [], m => some m
  | k :: rest, m =>
    match m.children.find? (fun c => c.address = m.address ++ [k]) with
    | none => none
    | some c => nodeAt rest c

/-- `memory.append().child(0)`: the fresh-cell allocation used by `str`
stores and by concretising an opaque value to a Memref.  Returns the
address of the new grandchild cell. -/
def STrace.allocFresh (s : STrace) : Option (List Int × STrace) :=
  match s.memory.appendOp s with
  | none => none
  | some (c1, root1, s₁) =>
    let s₂ : STrace := { s₁ with memory := root1 }
    s₂.atPath c1.address (fun m s =>
      match m.childAddr (m.address ++ [0]) s with
      | none => none
      | some (c, m', s') => some (m', c.address, s'))

/-- Loop states for `Memref.set_value`: storing one (optional) value into a
node, or walking the `(coord, subvalue)` pairs of a summary. -/
inductive SetTask where
  | one (v? : Option Value)
  | pairs (elems : List (Int × Option Value))

/-- `Memref.set_value`: a value with `recursive_mem` set is deconstructed —
its summary head becomes the node's scalar and each `(coord, subvalue)`
pair is stored into the child at that coordinate (created on demand via
`child`); any other value (including Python `None`) is stored directly.
A `recursive_mem` value whose payload is not a summary list would crash
Python's indexing and is `none`.  Fuel bounds the recursion. -/
def setValueGo : Nat → Memref → SetTask → STrace → Option (Memref × STrace)
  | 0, _, _, _ => none
  | _ + 1, m, .one none, s => some (.mk m.address none m.children, s)
  | fuel + 1, m, .one (some v), s =>
    if v.recursiveMem then
      match v.payload with
      | .summary head elems =>
        setValueGo fuel (.mk m.address head m.children) (.pairs elems) s
      | _ => none
    else some (.mk m.address (some v) m.children, s)
  | _ + 1, m, .pairs [], s => some (m, s)
  | fuel + 1, m, .pairs ((k, sub) :: rest), s =>
    match m.childAddr (m.address ++ [k]) s with
    | none => none
    | some (c, m', s') =>
      match setValueGo fuel c (.one sub) s' with
      | none => none
      | some (c', s'') =>
        setValueGo fuel
          (.mk m'.address m'.value
            (m'.children.map (fun x => if x.address = c.address then c' else x)))
          (.pairs rest) s''

def Memref.setValueOp (fuel : Nat) (m : Memref) (v? : Option Value)
    (s : STrace) : Option (Memref × STrace) :=
  setValueGo fuel m (.one v?) s

/-- `Memref.get_value`, written with an explicit loop state for the child
summaries.  A node with children yields a fresh concrete summary Value
(marked `recursive_mem` after construction); a leaf yields its stored
value (possibly Python `None`).  The tree is not mutated. -/
def getValueGo : Nat → Sum Memref (List Memref) → STrace →
    Option (Sum (Option Value) (List (Int × Option Value)) × STrace)
  | 0, _, _ => none
  | fuel + 1, .inl m, s =>
    match m.children with
    | [] => some (.inl m.value, s)
    | _ :: _ =>
      match getValueGo fuel (.inr m.children) s with
      | some (.inr elems, s') =>
        let (v, s'') := s'.newValue (.summary m.value elems) true
        some (.inl (some v.setRecMem), s'')
      | _ => none
  | _ + 1, .inr [], s => some (.inr [], s)
  | fuel + 1, .inr (c :: cs), s =>
    match getValueGo fuel (.inl c) s with
    | some (.inl cv, s') =>
      match getValueGo fuel (.inr cs) s' with
      | some (.inr elems, s'') => some (.inr ((c.lastCoord, cv) :: elems), s'')
      | _ => none
    | _ => none

def Memref.getValueOp (fuel : Nat) (m : Memref) (s : STrace) :
    Option (Option Value × STrace) :=
  match getValueGo fuel (.inl m) s with
  | some (.inl v, s') => some (v, s')
  | _ => none

/-- `Memref.__add__` at the state level: `self.parent.child(self.address[:-1]
+ (self.address[-1] + rhs,))`.  `none` when the node is the root (no
parent). -/
def STrace.ptrAddAlloc (s : STrace) (a : List Int) (rhs : Int) :
    Option (List Int × STrace) :=
  match a.getLast? with
  | none => none
  | some k =>
    s.atPath a.dropLast (fun m s =>
      match m.childAddr (a.dropLast ++ [k + rhs]) s with
      | none => none
      | some (c, m', s') => some (m', c.address, s'))

/-- Python `bool` as the `int` subclass it is: `True` is 1, `False` is 0
in every arithmetic context. -/
def boolToInt (b : Bool) : Int := if b then 1 else 0

/-- The check of the `Value.__init__` assertion:
`isinstance(value, list) and value[0] == "opaque"`.  The head element of a
list concatenation is the head of its left part. -/
def payloadIsOpq : Payload → Bool
  | .opq _ => true
  | .pyconcat a _ => payloadIsOpq a
  | _ => false

/-- Whether a payload stands for a Python list: the opaque marker
`["opaque", id]`, a deferred expression `[operator, v1, ...]`, a summary
`[head, (coord, subvalue), ...]`, or a concatenation of such lists. -/
def isListPayload : Payload → Bool
  | .opq _ => true
  | .deferOp _ _ => true
  | .summary _ _ => true
  | .pyconcat _ _ => true
  | _ => false

/-- `len(...)` of the Python list a list-shaped payload stands for
(0 on scalars, which stand for no list). -/
def pyListLen : Payload → Nat
  | .opq _ => 2
  | .deferOp _ args => 1 + args.length
  | .summary _ elems => 1 + elems.length
  | .pyconcat a b => pyListLen a + pyListLen b
  | _ => 0

/-- Python `==` between two list payloads: lists of different lengths are
unequal; two opaque markers compare by uid (their heads are the equal
string `"opaque"`); an opaque marker never equals another equal-length
list (the other head is an operator lambda, a Value object or `None`, and
a concatenation of equal length 2 cannot start with `"opaque"` as its
opaque left part alone has length 2); a deferred expression never equals a
summary (their heads are a lambda versus a Value object or `None`).
`none`: the remaining equal-length comparisons (two deferred expressions,
two summaries, concatenations against non-opaque lists), where Python
compares the element lambda and Value objects by identity, which the
address-free representation leaves undetermined. -/
def pyEqList (a b : Payload) : Option Bool :=
  if pyListLen a = pyListLen b then
    match a, b with
    | .opq i, .opq j => some (decide (i = j))
    | .opq _, _ => some false
    | _, .opq _ => some false
    | .deferOp _ _, .summary _ _ => some false
    | .summary _ _, .deferOp _ _ => some false
    | _, _ => none
  else some false

/-- Python `==` on concrete payloads (never an exception).  Numbers —
`bool` included — compare by value, strings by content.  A Memref has no
`__eq__`, so it compares by object identity, which within one trace is
address equality (`Memref.child` returns the existing child for a known
address and every other node has a fresh address, so distinct Memref
objects have distinct addresses).  Every remaining cross-type pair falls
back to identity and compares unequal. -/
def pyEq (a b : Payload) : Option Bool :=
  match a, b with
  | .int x, .int y => some (decide (x = y))
  | .int x, .pybool y => some (decide (x = boolToInt y))
  | .pybool x, .int y => some (decide (boolToInt x = y))
  | .pybool x, .pybool y => some (decide (x = y))
  | .strv x, .strv y => some (decide (x = y))
  | .memref x, .memref y => some (decide (x = y))
  | a, b =>
    if isListPayload a && isListPayload b then pyEqList a b
    else some false

/-- Python string comparison: lexicographic by code point, a proper prefix
is smaller. -/
def strLtB : List Char → List Char → Bool
  | [], [] => false
  | [], _ :: _ => true
  | _ :: _, [] => false
  | c :: cs, d :: ds =>
    if c.val < d.val then true
    else if d.val < c.val then false
    else strLtB cs ds

/-- Python string repetition `s * n` (empty for `n <= 0`). -/
def strRepeat (x : String) (n : Int) : String :=
  .mk ((List.replicate n.toNat x.data).flatten)

/-- The binary numeric operators of `Trace.emit_` on Python numbers.
Division and modulo by zero and negative shifts are Python exceptions
(`none`), as is any operator string outside the table. -/
def numOp (op : String) (x y : Int) : Option Payload :=
  match op with
  | "+" => some (.int (x + y))
  | "-" => some (.int (x - y))
  | "*" => some (.int (x * y))
  | "//" => if y = 0 then none else some (.int (Int.fdiv x y))
  | "%" => if y = 0 then none else some (.int (Int.fmod x y))
  | "<" => some (.pybool (decide (x < y)))
  | ">" => some (.pybool (decide (y < x)))
  | "<=" => some (.pybool (decide (x ≤ y)))
  | ">=" => some (.pybool (decide (y ≤ x)))
  | "<<" => if y < 0 then none else some (.int (x * (2 ^ y.toNat)))
  | ">>" => if y < 0 then none else some (.int (Int.fdiv x (2 ^ y.toNat)))
  | _ => none

/-- The binary operators on two Python strings: concatenation and the four
lexicographic comparisons; anything else is a `TypeError`. -/
def strOp (op : String) (x y : String) : Option Payload :=
  match op with
  | "+" => some (.strv (x ++ y))
  | "<" => some (.pybool (strLtB x.data y.data))
  | ">" => some (.pybool (strLtB y.data x.data))
  | "<=" => some (.pybool !(strLtB y.data x.data))
  | ">=" => some (.pybool !(strLtB x.data y.data))
  | _ => none

/-- The unary operators of `Trace.emit_` on a Python number. -/
def unOp (op : String) (x : Int) : Option Payload :=
  match op with
  | "-" => some (.int (-x))
  | "~" => some (.int (-(x + 1)))
  | _ => none

/-- The pure part of applying a concrete operator string (the lambdas
`Trace.emit_` builds with `eval`) to concrete canonical payloads.
`==`/`!=` follow `pyEq` (never an exception where determined); numbers and
booleans share the numeric table; strings support concatenation,
comparison and repetition by a number; `+` of two list payloads is Python
list concatenation, except that an opaque-headed left operand makes the
`Value` constructor that every call site runs on the result fail its
assertion (`AssertionError`, so `none`).  All other operand shapes are
Python `TypeError`s (`none`), as are the identity-dependent list
comparisons `pyEq` leaves undetermined. -/
def applyOpPure (op : String) (ps : List Payload) : Option Payload :=
  match ps with
  | [a, b] =>
    if op = "==" then (pyEq a b).map Payload.pybool
    else if op = "!=" then (pyEq a b).map (fun r => Payload.pybool !r)
    else
      match a, b with
      | .int x, .int y => numOp op x y
      | .int x, .pybool y => numOp op x (boolToInt y)
      | .pybool x, .int y => numOp op (boolToInt x) y
      | .pybool x, .pybool y => numOp op (boolToInt x) (boolToInt y)
      | .strv x, .strv y => strOp op x y
      | .strv x, .int n => if op = "*" then some (.strv (strRepeat x n)) else none
      | .strv x, .pybool bb =>
        if op = "*" then some (.strv (strRepeat x (boolToInt bb))) else none
      | .int n, .strv x => if op = "*" then some (.strv (strRepeat x n)) else none
      | .pybool bb, .strv x =>
        if op = "*" then some (.strv (strRepeat x (boolToInt bb))) else none
      | a, b =>
        if op = "+" && (isListPayload a && isListPayload b) then
          if payloadIsOpq a then none else some (.pyconcat a b)
        else none
  | [a] =>
    match a with
    | .int x => unOp op x
    | .pybool x => unOp op (boolToInt x)
    | _ => none
  | _ => none

/-- Application of a concrete operator string to concrete canonical
payloads.  Pointer addition (`Memref.__add__`: a Memref plus a Python
number) walks the memory tree through `parent.child` and may allocate, so
it is the one stateful case; everything else is `applyOpPure` with the
state untouched. -/
def applyOpConc (op : String) (ps : List Payload) (s : STrace) :
    Option (Payload × STrace) :=
  match ps with
  | [.memref a, .int n] =>
    if op = "+" then (s.ptrAddAlloc a n).map (fun r => (.memref r.1, r.2))
    else (applyOpPure op [.memref a, .int n]).map (fun p => (p, s))
  | [.memref a, .pybool b] =>
    if op = "+" then
      (s.ptrAddAlloc a (boolToInt b)).map (fun r => (.memref r.1, r.2))
    else (applyOpPure op [.memref a, .pybool b]).map (fun p => (p, s))
  | ps => (applyOpPure op ps).map (fun p => (p, s))

/-- `Trace.operate`: a new concrete Value from the host operator when every
canonical input is concrete, otherwise a deferred non-concrete Value
holding `[operator, v1, ...]`. -/
def STrace.operate (s : STrace) (op : String) (vals : List Value) :
    Option (Value × STrace) :=
  if vals.all Value.canonConcrete then
    match applyOpConc op (vals.map Value.canonPayload) s with
    | none => none
    | some (p, s') => some (s'.newValue p true)
  else some (s.newValue (.deferOp op vals) false)

/-- `Value.as_memref`, with an explicit loop state for the argument list of
a deferred expression.  The `inl` result carries the returned payload
(`self.cval()` after the call) and the updated value; `inr` carries the
concretised payloads and updated argument values.  A non-concrete value
whose canonical is not itself models the failing
`assert self.canonical == self`; a non-concrete, non-list payload is the
Python `TypeError` from `self.cval()[0]`. -/
def asMemrefGo : Nat → Sum Value (List Value) → STrace →
    Option (Sum (Payload × Value) (List Payload × List Value) × STrace)
  | 0, _, _ => none
  | fuel + 1, .inl v, s =>
    if v.canonConcrete then some (.inl (v.canonPayload, v), s)
    else
      match v.canonical with
      | some _ => none
      | none =>
        match v.payload with
        | .opq _ =>
          match s.allocFresh with
          | none => none
          | some (addr, s₁) =>
            let (cv, s₂) := s₁.newValue (.memref addr) true
            some (.inl (.memref addr, v.setCanon cv), s₂)
        | .deferOp op args =>
          match asMemrefGo fuel (.inr args) s with
          | some (.inr (cps, args'), s₁) =>
            match applyOpConc op cps s₁ with
            | none => none
            | some (p, s₂) =>
              let (cv, s₃) := s₂.newValue p true
              some (.inl (p, Value.mk (.deferOp op args') v.concrete (some cv)
                v.recursiveMem), s₃)
          | _ => none
        | _ => none
  | _ + 1, .inr [], s => some (.inr ([], []), s)
  | fuel + 1, .inr (a :: rest), s =>
    match asMemrefGo fuel (.inl a) s with
    | some (.inl (p, a'), s₁) =>
      match asMemrefGo fuel (.inr rest) s₁ with
      | some (.inr (cps, rest'), s₂) => some (.inr (p :: cps, a' :: rest'), s₂)
      | _ => none
    | _ => none

def Value.asMemref (fuel : Nat) (v : Value) (s : STrace) :
    Option (Payload × Value × STrace) :=
  match asMemrefGo fuel (.inl v) s with
  | some (.inl (p, v'), s') => some (p, v', s')
  | _ => none

/-- The mini-IR instructions handed to `Trace.emit_` (already desugared by
`Interpreter.emit`; embedded argument Values are `val`). -/
inductive IR where
  | val (v : Value)
  | imm (p : Payload)
  | deref (e : IR)
  | store (e : IR)
  | upd (src dst : IR)
  | mkOpq
  | field (headptr : IR) (src : IR)
  | binop (op : String) (a b : IR)
  | unop (op : String) (a : IR)
  | assertIR (e : IR)

/-- `op.startswith("bin_")`. -/
def startsBin (op : String) : Bool :=
  match op.data with
  | 'b' :: 'i' :: 'n' :: '_' :: _ => true
  | _ => false

/-- `op[len("bin_"):]`. -/
def binStrip (op : String) : String := String.mk (op.data.drop 4)

/-- Store an optional value into the node at an address (the common
`...as_memref().set_value(...)` step and the `str` store). -/
def STrace.storeAt (s : STrace) (fuel : Nat) (addr : List Int)
    (v? : Option Value) : Option (Unit × STrace) :=
  s.atPath addr (fun m s =>
    match m.setValueOp fuel v? s with
    | none => none
    | some (m', s') => some (m', (), s'))

/-- `child` at an address, keeping only the updated tree. -/
def childAtWrap (target : List Int) (m : Memref) (s : STrace) :
    Option (Memref × Unit × STrace) :=
  match m.childAddr target s with
  | none => none
  | some (_, m', s') => some (m', (), s')

/-- `Trace.emit_`.  The result is `some (v?, s)` where `v?` is the returned
Value or Python `None` (`assert`/`upd` return nothing); the outer `none`
models the Python exceptions, including the final
`raise NotImplementedError`.  Each branch follows the source's evaluation
order; in particular `assert` records its claim without evaluating it, and
`str` allocates the fresh cell before evaluating the stored
subexpression. -/
def emitIR : Nat → IR → STrace → Option (Option Value × STrace)
  | 0, _, _ => none
  | _ + 1, .val v, s => some (some v, s)
  | fuel + 1, .binop op a b, s =>
    if op == "+" || op == "==" || op == "!=" || op == "<" || startsBin op then
      let op1 := if startsBin op then binStrip op else op
      let op2 := if op1 == "/" then "//" else op1
      match emitIR fuel a s with
      | some (some va, s₁) =>
        match emitIR fuel b s₁ with
        | some (some vb, s₂) =>
          match s₂.operate op2 [va, vb] with
          | none => none
          | some (v, s₃) => some (some v, s₃)
        | _ => none
      | _ => none
    else none
  | fuel + 1, .unop op a, s =>
    if op == "-" || op == "~" then
      match emitIR fuel a s with
      | some (some va, s₁) =>
        match s₁.operate op [va] with
        | none => none
        | some (v, s₂) => some (some v, s₂)
      | _ => none
    else none
  | _ + 1, .assertIR _, s => some (none, s)
  | _ + 1, .imm p, s =>
    let (v, s') := s.newValue p true
    some (some v, s')
  | fuel + 1, .deref e, s =>
    match emitIR fuel e s with
    | some (some v, s₁) =>
      match v.asMemref fuel s₁ with
      | some (.memref addr, _, s₂) =>
        match nodeAt addr s₂.memory with
        | none => none
        | some node => node.getValueOp fuel s₂
      | _ => none
    | _ => none
  | fuel + 1, .store e, s =>
    match s.allocFresh with
    | none => none
    | some (addr, s₁) =>
      match emitIR fuel e s₁ with
      | some (sv, s₂) =>
        match s₂.storeAt fuel addr sv with
        | none => none
        | some (_, s₃) =>
          let (v, s₄) := s₃.newValue (.memref addr) true
          some (some v, s₄)
      | none => none
  | fuel + 1, .upd src dst, s =>
    match emitIR fuel dst s with
    | some (some vd, s₁) =>
      match vd.asMemref fuel s₁ with
      | some (.memref addr, _, s₂) =>
        match emitIR fuel src s₂ with
        | some (sv, s₃) =>
          match s₃.storeAt fuel addr sv with
          | none => none
          | some (_, s₄) => some (none, s₄)
        | none => none
      | _ => none
    | _ => none
  | _ + 1, .mkOpq, s =>
    let (v, s') := s.mkOpq
    some (some v, s')
  | fuel + 1, .field headptr src, s =>
    match emitIR fuel src s with
    | some (some vn, s₁) =>
      match vn.payload with
      | .strv nm =>
        let offs :=
          match s₁.offsets.lookup nm with
          | some o => (o, s₁)
          | none =>
            let o := s₁.offsets.length
            let (_, s') := s₁.newValue (.int o) true
            (o, { s' with offsets := s'.offsets ++ [(nm, o)] })
        match emitIR fuel headptr offs.2 with
        | some (some vh, s₃) =>
          match vh.asMemref fuel s₃ with
          | some (.memref a, _, s₄) =>
            match s₄.atPath a (childAtWrap (a ++ [0])) with
            | none => none
            | some (_, s₅) =>
              match s₅.atPath a (childAtWrap (a ++ [(0 : Int) + offs.1])) with
              | none => none
              | some (_, s₆) =>
                let (v, s₇) := s₆.newValue (.memref (a ++ [(0 : Int) + offs.1])) true
                some (some v, s₇)
          | _ => none
        | _ => none
      | _ => none
    | _ => none

/-! ## The GotoITE step (Interpreter.interpret, GotoITE case) -/

/-- Python truthiness of a payload (`if cond_val:`): zero, empty strings
and Python `False` are falsy; all the list-shaped payloads (opaque markers,
deferred expressions, summaries) are nonempty lists, hence truthy, and a
Memref object is truthy. -/
def pyTruthy : Payload → Bool
  | .int n => decide (¬n = 0)
  | .pybool b => b
  | .strv st => !st.data.isEmpty
  | .memref _ => true
  | .opq _ => true
  | .deferOp _ _ => true
  | .summary _ _ => true
  | .pyconcat _ _ => true

/-- The scan for `[l for l in lexemes if l.string == label and
l.next_lexeme().string == ":"][0]` over consecutive pairs. -/
def labelScan (lbl : List Char) : List Lexeme → Nat → Option Nat
  | l :: l2 :: rest, i =>
    if l.string = lbl ∧ l2.string = [':'] then some i
    else labelScan lbl (l2 :: rest) (i + 1)
  | _, _ => none

/-- Index of the jump target: the first lexeme whose surface is the label
and whose successor is a colon.  When the stream's final lexeme carries the
label string, the comprehension calls `.string` on `None` (AttributeError);
an absent label raises from `[0]`.  Both are `none`. -/
def labelTargetIdx (lexemes : List Lexeme) (lbl : List Char) : Option Nat :=
  if (lexemes.getLast?.map Lexeme.string) = some lbl then none
  else labelScan lbl lexemes 0

/-- Result of one GotoITE statement execution: which branch was taken, the
assert instruction recorded in the IR, the label searched for, the index
the execution head moves to, and the updated state. -/
structure GotoITEStep where
  takenIf : Bool
  emittedAssert : IR
  target : List Char
  targetIdx : Nat
  state : STrace

/-- The GotoITE case of `Interpreter.interpret`: evaluate and concretise
the condition (`trace.emit(("*", cond))` then `.cval()`), branch on Python
truthiness, record `(assert (!= (* cond) (imm 0)))` on the true branch and
`(assert (== (* cond) (imm 0)))` on the false branch (the recorded claim
is not evaluated by `emit_`), and move the head to the first occurrence of
`if_label :` respectively `else_label :` in the stream.  A single branch is
taken; there is no forking. -/
def gotoITEStep (fuel : Nat) (lexemes : List Lexeme) (cond : Value)
    (ifLabel elseLabel : Lexeme) (s : STrace) : Option GotoITEStep :=
  match emitIR fuel (.deref (.val cond)) s with
  | some (some cv, s₁) =>
    if pyTruthy cv.canonPayload then
      let ir : IR := .assertIR (.binop "!=" (.deref (.val cond)) (.imm (.int 0)))
      match emitIR fuel ir s₁ with
      | some (_, s₂) =>
        match labelTargetIdx lexemes ifLabel.string with
        | none => none
        | some i => some ⟨true, ir, ifLabel.string, i, s₂⟩
      | none => none
    else
      let ir : IR := .assertIR (.binop "==" (.deref (.val cond)) (.imm (.int 0)))
      match emitIR fuel ir s₁ with
      | some (_, s₂) =>
        match labelTargetIdx lexemes elseLabel.string with
        | none => none
        | some i => some ⟨false, ir, elseLabel.string, i, s₂⟩
      | none => none
  | _ => none

/-- Whether the evaluated, concretised condition of a GotoITE is a
non-concrete Value: `trace.emit(("*", cond))` returns a Value whose
canonical element has `concrete == False` and carries one of the two
non-concrete shapes the engine constructs — the raw opaque marker
`["opaque", id]` (`Trace.opaque`) or a deferred operator expression
`[operator, v1, ...]` (`Trace.operate` on non-concrete inputs, e.g.
`x == 0` for opaque `x`). -/
def derefNonConcrete (fuel : Nat) (cond : Value) (s : STrace) : Bool :=
  match emitIR fuel (.deref (.val cond)) s with
  | some (some cv, _) =>
    !cv.canonConcrete &&
      (match cv.canonPayload with
       | .opq _ => true
       | .deferOp _ _ => true
       | _ => false)
  | _ => false

/-- Claim C1: whenever a goto_ite's condition evaluates to a non-concrete
Value — a raw opaque marker or a deferred expression over opaques — the
executed step takes the true branch (its `cval()` is a nonempty list,
hence Python-truthy): the head moves to the `if_label` side and the
assertion recorded in the IR is that the condition is nonzero
(`(assert (!= (* cond) (imm 0)))`); only that single path is taken (the
step function returns exactly one outcome). -/
theorem gotoITE_opaque_true_branch (fuel : Nat) (lexemes : List Lexeme)
    (cond : Value) (ifLabel elseLabel : Lexeme) (s : STrace)
    (hopq : derefNonConcrete fuel cond s = true)
    (hsome : (gotoITEStep fuel lexemes cond ifLabel elseLabel s).isSome = true) :
    (gotoITEStep fuel lexemes cond ifLabel elseLabel s).map
      (fun r => (r.takenIf, r.target, r.emittedAssert)) =
    some (true, ifLabel.string,
      .assertIR (.binop "!=" (.deref (.val cond)) (.imm (.int 0)))) := by
  unfold derefNonConcrete at hopq
  unfold gotoITEStep at hsome ⊢
  cases hd : emitIR fuel (.deref (.val cond)) s with
  | none => rw [hd] at hopq; cases hopq
  | some r =>
    obtain ⟨cv?, s₁⟩ := r
    cases cv? with
    | none => rw [hd] at hopq; cases hopq
    | some cv =>
      rw [hd] at hopq hsome
      dsimp only at hopq hsome ⊢
      rw [Bool.and_eq_true] at hopq
      have h2 := hopq.2
      have htr : pyTruthy cv.canonPayload = true := by
        cases hcp : cv.canonPayload <;> rw [hcp] at h2 <;>
          dsimp only at h2 <;>
          first
            | rfl
            | cases h2
      rw [htr] at hsome ⊢
      rw [if_pos rfl] at hsome ⊢
      cases ha : emitIR fuel
          (.assertIR (.binop "!=" (.deref (.val cond)) (.imm (.int 0)))) s₁ with
      | none => rw [ha] at hsome; cases hsome
      | some ra =>
        obtain ⟨av, s₂⟩ := ra
        rw [ha] at hsome
        dsimp only at hsome ⊢
        cases hl : labelTargetIdx lexemes ifLabel.string with
        | none => rw [hl] at hsome; cases hsome
        | some i => rfl

/-- A deferred condition `x == 0` over an opaque `x`, as `Trace.operate`
builds it. -/
def condDefW : Value :=
  .mk (.deferOp "==" [.mk (.opq 3) false none false,
    .mk (.int 0) true none false]) false none false

/-- A pointer to the memory cell holding the deferred condition. -/
def condPtrW : Value := .mk (.memref [0]) true none false

/-- A state whose memory holds `condDefW` at address `(0,)`. -/
def sDefW : STrace := ⟨4, .mk [] none [.mk [0] (some condDefW) []], [], []⟩

def ifLabelW : Lexeme := tok "ident" "L1" 20

def elseLabelW : Lexeme := tok "ident" "L2" 24

/-- A stream containing both labels (`L1 : 0 ; L2 : 0 ;`). -/
def gotoLexemesW : List Lexeme :=
  [tok "ident" "L1" 0, tok "op" ":" 3, tok "numlit" "0" 5, tok "op" ";" 6,
   tok "ident" "L2" 8, tok "op" ":" 11, tok "numlit" "0" 13, tok "op" ";" 14]

theorem gotoITE_opaque_true_branch_witness :
    derefNonConcrete 10 condPtrW sDefW = true ∧
    (gotoITEStep 10 gotoLexemesW condPtrW ifLabelW elseLabelW sDefW).isSome =
      true ∧
    (gotoITEStep 10 gotoLexemesW condPtrW ifLabelW elseLabelW sDefW).map
        (fun r => (r.takenIf, r.target, r.emittedAssert)) =
      some (true, ifLabelW.string,
        .assertIR (.binop "!=" (.deref (.val condPtrW)) (.imm (.int 0)))) :=
  ⟨rfl, rfl,
    gotoITE_opaque_true_branch 10 gotoLexemesW condPtrW ifLabelW elseLabelW
      sDefW rfl rfl⟩

/-- Claim C8: `Value.as_memref` is idempotent.  Whenever a first call on
`v` returns a result `m`, the value's canonical element has become
concrete, and a subsequent call (any positive fuel) returns the same `m`
with the value and the whole state unchanged — in particular no memory
node is allocated by the second call. -/
theorem asMemref_idempotent (fuel fuel' : Nat) (v : Value) (s : STrace)
    (p : Payload) (v' : Value) (s' : STrace)
    (h : Value.asMemref fuel v s = some (p, v', s')) :
    v'.canonConcrete = true ∧
    Value.asMemref (fuel' + 1) v' s' = some (p, v', s') := by
  cases fuel with
  | zero => simp [Value.asMemref, asMemrefGo] at h
  | succ f =>
    unfold Value.asMemref at h
    by_cases hc : v.canonConcrete
    · have hgo : asMemrefGo (f + 1) (.inl v) s =
          some (.inl (v.canonPayload, v), s) := by
        simp [asMemrefGo, hc]
      rw [hgo] at h
      simp only [Option.some.injEq, Prod.mk.injEq] at h
      obtain ⟨h1, h2, h3⟩ := h
      subst h1; subst h2; subst h3
      refine ⟨hc, ?_⟩
      unfold Value.asMemref
      simp [asMemrefGo, hc]
    · simp only [Bool.not_eq_true] at hc
      cases hcan : v.canonical with
      | some c =>
        have hgo : asMemrefGo (f + 1) (.inl v) s = none := by
          simp [asMemrefGo, hc, hcan]
        rw [hgo] at h
        cases h
      | none =>
        cases hp : v.payload with
        | opq i =>
          cases hal : s.allocFresh with
          | none =>
            have hgo : asMemrefGo (f + 1) (.inl v) s = none := by
              simp [asMemrefGo, hc, hcan, hp, hal]
            rw [hgo] at h
            cases h
          | some r =>
            obtain ⟨addr, s₁⟩ := r
            have hgo : asMemrefGo (f + 1) (.inl v) s =
                some (.inl (.memref addr,
                  v.setCanon (.mk (.memref addr) true none false)),
                  { s₁ with log := ⟨.memref addr, true⟩ :: s₁.log }) := by
              simp [asMemrefGo, hc, hcan, hp, hal, STrace.newValue]
            rw [hgo] at h
            simp only [Option.some.injEq, Prod.mk.injEq] at h
            obtain ⟨h1, h2, h3⟩ := h
            subst h1; subst h2; subst h3
            refine ⟨rfl, ?_⟩
            unfold Value.asMemref
            simp [asMemrefGo, Value.setCanon, Value.canonConcrete,
              Value.canonical, Value.canonPayload, Value.payload,
              Value.concrete, Value.recursiveMem]
        | deferOp op args =>
          cases hr : asMemrefGo f (.inr args) s with
          | none =>
            have hgo : asMemrefGo (f + 1) (.inl v) s = none := by
              simp [asMemrefGo, hc, hcan, hp, hr]
            rw [hgo] at h
            cases h
          | some rr =>
            obtain ⟨res, s₁⟩ := rr
            cases res with
            | inl q =>
              have hgo : asMemrefGo (f + 1) (.inl v) s = none := by
                simp [asMemrefGo, hc, hcan, hp, hr]
              rw [hgo] at h
              cases h
            | inr q =>
              obtain ⟨cps, args'⟩ := q
              cases happ : applyOpConc op cps s₁ with
              | none =>
                have hgo : asMemrefGo (f + 1) (.inl v) s = none := by
                  simp [asMemrefGo, hc, hcan, hp, hr, happ]
                rw [hgo] at h
                cases h
              | some pr =>
                obtain ⟨p₀, s₂⟩ := pr
                have hgo : asMemrefGo (f + 1) (.inl v) s =
                    some (.inl (p₀, Value.mk (.deferOp op args') v.concrete
                      (some (.mk p₀ true none false)) v.recursiveMem),
                      { s₂ with log := ⟨p₀, true⟩ :: s₂.log }) := by
                  simp [asMemrefGo, hc, hcan, hp, hr, happ, STrace.newValue]
                rw [hgo] at h
                simp only [Option.some.injEq, Prod.mk.injEq] at h
                obtain ⟨h1, h2, h3⟩ := h
                subst h1; subst h2; subst h3
                refine ⟨rfl, ?_⟩
                unfold Value.asMemref
                simp [asMemrefGo, Value.canonConcrete, Value.canonical,
                  Value.canonPayload, Value.payload, Value.concrete,
                  Value.recursiveMem]
        | int n =>
          have hgo : asMemrefGo (f + 1) (.inl v) s = none := by
            simp [asMemrefGo, hc, hcan, hp]
          rw [hgo] at h; cases h
        | pybool b =>
          have hgo : asMemrefGo (f + 1) (.inl v) s = none := by
            simp [asMemrefGo, hc, hcan, hp]
          rw [hgo] at h; cases h
        | strv st =>
          have hgo : asMemrefGo (f + 1) (.inl v) s = none := by
            simp [asMemrefGo, hc, hcan, hp]
          rw [hgo] at h; cases h
        | memref a =>
          have hgo : asMemrefGo (f + 1) (.inl v) s = none := by
            simp [asMemrefGo, hc, hcan, hp]
          rw [hgo] at h; cases h
        | summary hd el =>
          have hgo : asMemrefGo (f + 1) (.inl v) s = none := by
            simp [asMemrefGo, hc, hcan, hp]
          rw [hgo] at h; cases h
        | pyconcat pa pb =>
          have hgo : asMemrefGo (f + 1) (.inl v) s = none := by
            simp [asMemrefGo, hc, hcan, hp]
          rw [hgo] at h; cases h

def vC8 : Value := .mk (.opq 99) false none false

def vC8' : Value :=
  .mk (.opq 99) false (some (.mk (.memref [0, 0]) true none false)) false

def memC8 : Memref :=
  .mk [] none [.mk [0] (some (.mk (.opq 0) false none false))
    [.mk [0, 0] (some (.mk (.opq 1) false none false)) []]]

def sC8 : STrace :=
  ⟨2, memC8, [], [⟨.memref [0, 0], true⟩, ⟨.opq 1, false⟩, ⟨.opq 0, false⟩]⟩

theorem asMemref_idempotent_witness :
    Value.asMemref 6 vC8 initTrace = some (.memref [0, 0], vC8', sC8) ∧
    (vC8'.canonConcrete = true ∧
      Value.asMemref 6 vC8' sC8 = some (.memref [0, 0], vC8', sC8)) :=
  ⟨rfl, asMemref_idempotent 6 5 vC8 initTrace _ _ _ rfl⟩

/-! ## Function lookup and the default call handler
(miniparse.find_fn, Interpreter.default_fn_handler) -/

/-- Python list indexing `tree[i]` on a node `[label, child1, ...]`:
index 0 is the label, index `i + 1` is child `i`. -/
def pyIdx : PTree → Nat → Option PTree
  | .node _ cs, i + 1 => cs.get? i
  | _, _ => none

/-- The one-rule grammar of `parse_csv`. -/
def csvRules (comma : String) : List (String × List PExpr) :=
  [("Val", [.skipto [.str comma], .opt [.ref "Val"]])]

/-- The `visit` collector of `parse_csv`: the skipped prefix of every
skipto node, in order (written with an explicit loop state over child
lists). -/
def csvVisitGo : Nat → Sum PTree (List PTree) → List (List Lexeme)
  | 0, _ => []
  | _ + 1, .inl (.node "skipto" (.lexs skipped :: _)) => [skipped]
  | fuel + 1, .inl (.node lbl cs) =>
    if lbl = "skipto" then [] else csvVisitGo fuel (.inr cs)
  | _ + 1, .inl _ => []
  | _ + 1, .inr [] => []
  | fuel + 1, .inr (c :: cs) =>
    csvVisitGo fuel (.inl c) ++ csvVisitGo fuel (.inr cs)

/-- `parse_csv(lexemes, comma)`: split a lexeme list at separators,
treating balanced groups as atoms. -/
def parseCsv (fuel : Nat) (comma : String) (lexemes : List Lexeme) :
    List (List Lexeme) :=
  match pegParse (csvRules comma) fuel (.ref "Val") lexemes with
  | .fail => if lexemes.isEmpty then [] else [lexemes]
  | .ok t rest =>
    (match t with
     | some tr => csvVisitGo fuel (.inl tr)
     | none => []) ++ [rest]

/-- Parameter-name and body extraction from a parsed `Function` statement
(`tree[1][2][2]` is the parameter parenthesis' inner span, `tree[1][3][1]`
the body's opening brace); `none` models the Python exceptions on
unexpected shapes, which the grammar does not produce. -/
def extractFn (fuel : Nat) (tree1 : PTree) : Option (Lexeme × List (List Char)) :=
  match pyIdx tree1 2 with
  | some (.node "bal" [.leaf _, .lexs inner, .leaf _]) =>
    let params := (parseCsv fuel "," inner).filterMap
      (fun x => x.getLast?.map Lexeme.string)
    match pyIdx tree1 3 with
    | some (.node "bal" (.leaf ob :: _)) => some (ob, params)
    | _ => none
  | _ => none

/-- The candidate loop of `find_fn`: for each lexeme whose surface equals
the name, parse the suffix starting there; on a `Function` parse the
memoised result is extracted and returned, otherwise the scan continues;
`(False, False)` — here `none` — when no candidate parses as a function
definition.  (The memo table only caches results and is dropped.) -/
def findFnAux (fuel : Nat) (name : List Char) : List Lexeme →
    Option (Lexeme × List (List Char))
  | [] => none
  | l :: rest =>
    if l.string = name then
      match parseSomeCF fuel (l :: rest) with
      | .ok (some t) _ =>
        match pyIdx t 1 with
        | some (.node "Function" fcs) => extractFn fuel (.node "Function" fcs)
        | _ => findFnAux fuel name rest
      | _ => findFnAux fuel name rest
    else findFnAux fuel name rest

/-- `find_fn(name_lex)` over the stream's lexeme list. -/
def findFn (fuel : Nat) (lexemes : List Lexeme) (name : List Char) :
    Option (Lexeme × List (List Char)) :=
  findFnAux fuel name lexemes

/-- Whether the statement parsed at a suffix is a `Function` definition
(`tree is not False and tree[1][0] == "Function"`). -/
def isFnAt (fuel : Nat) (suffix : List Lexeme) : Bool :=
  match parseSomeCF fuel suffix with
  | .ok (some t) _ =>
    match pyIdx t 1 with
    | some (.node "Function" _) => true
    | _ => false
  | _ => false

/-- `Interpreter.default_fn_handler` for the handler and verbose tables as
`Interpreter.__init__` creates them (`verbose_fns` is left empty, so the
verbose branch — which only prints argument diagnostics, dereferencing the
arguments for formatting, before the same fall-through — is never taken):
look the callee up with `find_fn`; with no definition found the handler
returns `self.trace.opaque()`.  The found-definition path runs the
callee's body through the step loop and is outside this model
(`none`). -/
def defaultFnHandler (fuel : Nat) (lexemes : List Lexeme)
    (name : List Char) (s : STrace) : Option (Value × STrace) :=
  match findFn fuel lexemes name with
  | some _ => none
  | none => some s.mkOpq

/-- The handler dispatch at the end of the `FnCall` case of
`interpret_expr_`, for an interpreter whose handler table is as
`Interpreter.__init__` leaves it (the default handler registered under
`None`) plus the host's `register_fn` names: the internal `___ifconcr`
sentinel and registered names go to host code (outside the model), and
everything else goes to the default handler. -/
def fnCallDispatch (fuel : Nat) (lexemes : List Lexeme)
    (registered : List (List Char)) (name : List Char)
    (s : STrace) : Option (Value × STrace) :=
  if name = "___ifconcr".data then none
  else if name ∈ registered then none
  else defaultFnHandler fuel lexemes name s

theorem findFnAux_none (fuel : Nat) (name : List Char) :
    ∀ tl : List Lexeme,
      (∀ (l : Lexeme) (rest : List Lexeme), (l :: rest) <:+ tl →
        l.string = name → isFnAt fuel (l :: rest) = false) →
      findFnAux fuel name tl = none := by
  intro tl
  induction tl with
  | nil => intro _; rfl
  | cons l rest ih =>
    intro h
    have hrest : ∀ (l2 : Lexeme) (r2 : List Lexeme), (l2 :: r2) <:+ rest →
        l2.string = name → isFnAt fuel (l2 :: r2) = false :=
      fun l2 r2 hs hn2 => h l2 r2 (hs.trans (List.suffix_cons l rest)) hn2
    unfold findFnAux
    by_cases hn : l.string = name
    · rw [if_pos hn]
      have hself := h l rest List.suffix_rfl hn
      unfold isFnAt at hself
      split
      next t restLex heq =>
        rw [heq] at hself
        try dsimp only at hself
        split
        next fcs heq2 =>
          rw [heq2] at hself
          try dsimp only at hself
          cases hself
        next hne =>
          exact ih hrest
      next r hne =>
        exact ih hrest
    · rw [if_neg hn]
      exact ih hrest

/-- Claim C7: for a function call whose callee name is not `___ifconcr`,
has no registered handler, and has no `Function` definition in the lexeme
stream — no suffix beginning with a lexeme that carries the callee's name
(exactly the candidate set `find_fn` scans) parses as a `Function`
definition — evaluating the call raises no error (the dispatch returns a
result) and yields a fresh opaque Value — `["opaque", uid]` with the
current counter, which is incremented. -/
theorem missing_fn_yields_opaque (fuel : Nat) (lexemes : List Lexeme)
    (registered : List (List Char)) (name : List Char) (s : STrace)
    (hsent : ¬name = "___ifconcr".data)
    (hreg : name ∉ registered)
    (hnofn : ∀ (i : Nat) (l : Lexeme) (rest : List Lexeme),
      lexemes.drop i = l :: rest → l.string = name →
      isFnAt fuel (l :: rest) = false) :
    fnCallDispatch fuel lexemes registered name s =
      some (.mk (.opq s.counter) false none false,
        { s with counter := s.counter + 1,
                 log := ⟨.opq s.counter, false⟩ :: s.log }) := by
  unfold fnCallDispatch defaultFnHandler
  rw [if_neg hsent, if_neg hreg]
  have hnone : findFn fuel lexemes name = none := by
    apply findFnAux_none
    intro l rest hs hnm
    have hdrop := List.suffix_iff_eq_drop.mp hs
    exact hnofn (lexemes.length - (l :: rest).length) l rest hdrop.symm hnm
  rw [hnone]
  rfl

/-- A stream `foo ; int main ( ) { return 0 ; }` that defines a function
`main` but none named `foo`. -/
def noFnLexemes : List Lexeme :=
  [tok "ident" "foo" 0, tok "op" ";" 4,
   tok "ident" "int" 6, tok "ident" "main" 10, tok "op" "(" 15,
   tok "op" ")" 16, tok "op" "\x7b" 18, tok "ident" "return" 20,
   tok "numlit" "0" 27, tok "op" ";" 28, tok "op" "\x7d" 30]

theorem missing_fn_yields_opaque_witness :
    (¬("foo".data : List Char) = "___ifconcr".data) ∧
    ("foo".data : List Char) ∉ ([] : List (List Char)) ∧
    (∀ (i : Nat) (l : Lexeme) (rest : List Lexeme),
      noFnLexemes.drop i = l :: rest → l.string = "foo".data →
      isFnAt 60 (l :: rest) = false) ∧
    fnCallDispatch 60 noFnLexemes [] "foo".data initTrace =
      some (.mk (.opq 0) false none false,
        { initTrace with counter := 1, log := [⟨.opq 0, false⟩] }) := by
  have hb : ∀ (i : Nat) (l : Lexeme) (rest : List Lexeme),
      noFnLexemes.drop i = l :: rest → l.string = "foo".data →
      isFnAt 60 (l :: rest) = false := by
    intro i l rest h hn
    have hlt : i < noFnLexemes.length := by
      by_contra hge
      rw [List.drop_eq_nil_of_le (Nat.le_of_not_lt hge)] at h
      cases h
    have h2 : i ≤ 10 := by
      have h3 := hlt
      simp only [noFnLexemes, List.length] at h3
      omega
    interval_cases i <;> cases h <;>
      first
        | decide
        | exact absurd hn (by decide)
  refine ⟨by decide, by decide, hb, ?_⟩
  exact missing_fn_yields_opaque 60 noFnLexemes [] "foo".data initTrace
    (by decide) (by decide) hb

/-! ## Claim C10: the assertion of `Value.__init__` -/

/-- Well-formedness of a memory node, the invariants of claim C4: every
child's address is the parent's address extended by one integer (its
trailing coordinate), the children are sorted strictly ascending by
trailing coordinate, and all children are themselves well-formed. -/
inductive MemWF : Memref → Prop where
  | mk : ∀ (addr : List Int) (val : Option Value) (children : List Memref),
      (∀ c ∈ children, c.address = addr ++ [c.lastCoord]) →
      children.Pairwise (fun a b => a.lastCoord < b.lastCoord) →
      (∀ c ∈ children, MemWF c) →
      MemWF (.mk addr val children)

theorem memWF_iff (a : List Int) (v : Option Value) (cs : List Memref) :
    MemWF (.mk a v cs) ↔
      (∀ c ∈ cs, c.address = a ++ [c.lastCoord]) ∧
      cs.Pairwise (fun x y => x.lastCoord < y.lastCoord) ∧
      (∀ c ∈ cs, MemWF c) := by
  constructor
  · intro h
    cases h with
    | mk _ _ _ h1 h2 h3 => exact ⟨h1, h2, h3⟩
  · intro ⟨h1, h2, h3⟩
    exact .mk a v cs h1 h2 h3

theorem tupLt_append : ∀ (a : List Int) (x y : Int),
    tupLt (a ++ [x]) (a ++ [y]) = decide (x < y) := by
  intro a
  induction a with
  | nil =>
    intro x y
    simp only [List.nil_append, tupLt]
    by_cases h : x < y
    · simp [h, tupLt]
    · by_cases h2 : y < x
      · simp [h, h2]
      · simp [h, h2, tupLt]
  | cons z zs ih =>
    intro x y
    simp only [List.cons_append, tupLt]
    rw [if_neg (lt_irrefl z), if_neg (lt_irrefl z)]
    exact ih x y

theorem lastCoord_concat (a : List Int) (k : Int) (v : Option Value)
    (cs : List Memref) : Memref.lastCoord (.mk (a ++ [k]) v cs) = k := by
  simp [Memref.lastCoord, Memref.address, List.getLast?_concat]

theorem lastCoord_eq_of_address_eq {x y : Memref}
    (h : x.address = y.address) : x.lastCoord = y.lastCoord := by
  cases x with
  | mk xa xv xc =>
    cases y with
    | mk ya yv yc =>
      simp only [Memref.address] at h
      simp [Memref.lastCoord, Memref.address, h]

theorem childScan_found : ∀ (cs : List Memref) (addr : List Int) (c : Memref),
    childScan cs addr = .inl c → c ∈ cs ∧ c.address = addr := by
  intro cs
  induction cs with
  | nil => intro addr c h; cases h
  | cons c0 rest ih =>
    intro addr c h
    unfold childScan at h
    split at h
    · cases h
      exact ⟨List.mem_cons_self _ _, by assumption⟩
    · split at h
      · cases h
      · cases hmatch : childScan rest addr with
        | inl c1 =>
          rw [hmatch] at h
          dsimp only at h
          cases h
          obtain ⟨hm, ha⟩ := ih addr c hmatch
          exact ⟨List.mem_cons_of_mem _ hm, ha⟩
        | inr i =>
          rw [hmatch] at h
          dsimp only at h
          cases h

theorem childScan_not_found : ∀ (cs : List Memref) (addr : List Int),
    (∀ c ∈ cs, ¬c.address = addr) → ∃ i, childScan cs addr = .inr i := by
  intro cs
  induction cs with
  | nil => intro addr _; exact ⟨0, rfl⟩
  | cons c0 rest ih =>
    intro addr hmiss
    unfold childScan
    rw [if_neg (hmiss c0 (List.mem_cons_self _ _))]
    by_cases hlt : tupLt addr c0.address = true
    · rw [if_pos hlt]
      exact ⟨0, rfl⟩
    · rw [if_neg hlt]
      obtain ⟨i, hi⟩ := ih addr (fun c hc => hmiss c (List.mem_cons_of_mem _ hc))
      rw [hi]
      exact ⟨i + 1, rfl⟩

theorem childScan_insert :
    ∀ (cs : List Memref) (base : List Int) (k : Int) (fresh : Memref),
      (∀ c ∈ cs, c.address = base ++ [c.lastCoord]) →
      cs.Pairwise (fun a b => a.lastCoord < b.lastCoord) →
      fresh.lastCoord = k →
      ∀ i : Nat, childScan cs (base ++ [k]) = .inr i →
      ((cs.insertIdx i fresh).Pairwise
          (fun a b => a.lastCoord < b.lastCoord) ∧
       (∀ c ∈ cs.insertIdx i fresh, c = fresh ∨ c ∈ cs) ∧
       fresh ∈ cs.insertIdx i fresh) := by
  intro cs
  induction cs with
  | nil =>
    intro base k fresh _ _ _ i h
    cases h
    rw [List.insertIdx_zero]
    refine ⟨List.pairwise_singleton _ _, ?_, List.mem_singleton_self _⟩
    intro c hc
    rw [List.mem_singleton] at hc
    exact .inl hc
  | cons c0 rest ih =>
    intro base k fresh haddr hpw hfk i h
    have haddr0 : c0.address = base ++ [c0.lastCoord] :=
      haddr c0 (List.mem_cons_self _ _)
    have haddr' : ∀ c ∈ rest, c.address = base ++ [c.lastCoord] :=
      fun c hc => haddr c (List.mem_cons_of_mem _ hc)
    rw [List.pairwise_cons] at hpw
    obtain ⟨hpw0, hpw'⟩ := hpw
    unfold childScan at h
    split at h
    · cases h
    · split at h
      next hlt =>
        cases h
        rw [List.insertIdx_zero]
        have hk0 : k < c0.lastCoord := by
          rw [haddr0, tupLt_append] at hlt
          exact of_decide_eq_true hlt
        refine ⟨?_, ?_, List.mem_cons_self _ _⟩
        · rw [List.pairwise_cons]
          refine ⟨?_, List.pairwise_cons.mpr ⟨hpw0, hpw'⟩⟩
          intro x hx
          rw [hfk]
          rcases List.mem_cons.mp hx with rfl | hx'
          · exact hk0
          · exact lt_trans hk0 (hpw0 x hx')
        · intro c hc
          rcases List.mem_cons.mp hc with rfl | hc'
          · exact .inl rfl
          · exact .inr hc'
      next hlt =>
        next hne =>
          cases hmatch : childScan rest (base ++ [k]) with
          | inl c1 => rw [hmatch] at h; dsimp only at h; cases h
          | inr i0 =>
            rw [hmatch] at h
            dsimp only at h
            cases h
            obtain ⟨pw', mem', freshmem'⟩ :=
              ih base k fresh haddr' hpw' hfk i0 hmatch
            have hc0k : c0.lastCoord < k := by
              have hne' : ¬c0.lastCoord = k := by
                intro hEq
                exact hne (by rw [haddr0, hEq])
              have hnk : ¬(k < c0.lastCoord) := by
                intro hk
                rw [haddr0, tupLt_append] at hlt
                exact hlt (decide_eq_true hk)
              omega
            rw [List.insertIdx_succ_cons]
            refine ⟨?_, ?_, List.mem_cons_of_mem _ freshmem'⟩
            · rw [List.pairwise_cons]
              refine ⟨?_, pw'⟩
              intro x hx
              rcases mem' x hx with rfl | hx'
              · rw [hfk]; exact hc0k
              · exact hpw0 x hx'
            · intro c hc
              rcases List.mem_cons.mp hc with rfl | hc'
              · exact .inr (List.mem_cons_self _ _)
              · rcases mem' c hc' with rfl | hcc
                · exact .inl rfl
                · exact .inr (List.mem_cons_of_mem _ hcc)

theorem childAddr_WF {m : Memref} {addr : List Int} {k : Int} {s : STrace}
    {c m' : Memref} {s' : STrace}
    (hWF : MemWF m) (haddr : addr = m.address ++ [k])
    (h : m.childAddr addr s = some (c, m', s')) :
    MemWF m' ∧ m'.address = m.address ∧ m'.value = m.value ∧
    MemWF c ∧ c.address = addr ∧ c ∈ m'.children := by
  cases m with
  | mk a v cs =>
    simp only [Memref.address] at haddr
    subst haddr
    rw [memWF_iff] at hWF
    obtain ⟨hform, hpw, hkids⟩ := hWF
    unfold Memref.childAddr at h
    rw [if_pos (by simp [Memref.address, List.dropLast_concat])] at h
    dsimp only [Memref.children, Memref.address] at h
    cases hscan : childScan cs (a ++ [k]) with
    | inl c0 =>
      rw [hscan] at h
      cases h
      obtain ⟨hmem, haddr0⟩ := childScan_found _ _ _ hscan
      exact ⟨.mk a v cs hform hpw hkids, rfl, rfl, hkids _ hmem, haddr0,
        hmem⟩
    | inr i =>
      rw [hscan] at h
      simp only [STrace.mkOpq, STrace.uid, STrace.newValue] at h
      cases h
      obtain ⟨pw', mem', freshmem⟩ := childScan_insert cs a k
        (.mk (a ++ [k]) (some (.mk (.opq s.counter) false none false)) [])
        hform hpw (lastCoord_concat a k _ _) i hscan
      refine ⟨?_, rfl, rfl, ?_, by simp [Memref.address], freshmem⟩
      · rw [memWF_iff]
        refine ⟨?_, pw', ?_⟩
        · intro x hx
          rcases mem' x hx with rfl | hx'
          · simp [Memref.address, lastCoord_concat]
          · exact hform x hx'
        · intro x hx
          rcases mem' x hx with rfl | hx'
          · exact .mk _ _ _ (by intro y hy; cases hy)
              List.Pairwise.nil (by intro y hy; cases hy)
          · exact hkids x hx'
      · exact .mk _ _ _ (by intro y hy; cases hy) List.Pairwise.nil
          (by intro y hy; cases hy)

theorem childAddr_alloc_on_read {m : Memref} {k : Int} {s : STrace}
    {c m' : Memref} {s' : STrace}
    (hWF : MemWF m)
    (hmiss : ∀ c0 ∈ m.children, ¬c0.address = m.address ++ [k])
    (h : m.childAddr (m.address ++ [k]) s = some (c, m', s')) :
    c = .mk (m.address ++ [k]) (some (.mk (.opq s.counter) false none false))
      [] ∧
    c ∈ m'.children ∧ s'.counter = s.counter + 1 ∧
    MemWF m' ∧ m'.address = m.address := by
  have hall := childAddr_WF hWF rfl h
  cases m with
  | mk a v cs =>
    unfold Memref.childAddr at h
    rw [if_pos (by simp [Memref.address, List.dropLast_concat])] at h
    dsimp only [Memref.children, Memref.address] at h
    cases hscan : childScan cs (a ++ [k]) with
    | inl c0 =>
      obtain ⟨hmem, haddr0⟩ := childScan_found _ _ _ hscan
      exact absurd haddr0 (hmiss c0 hmem)
    | inr i =>
      rw [hscan] at h
      simp only [STrace.mkOpq, STrace.uid, STrace.newValue] at h
      cases h
      exact ⟨rfl, hall.2.2.2.2.2, rfl, hall.1, hall.2.1⟩

theorem mapReplace_WF {a : List Int} {v : Option Value} {cs : List Memref}
    {caddr : List Int} {c' : Memref}
    (hWF : MemWF (.mk a v cs)) (haddr : c'.address = caddr)
    (hc' : MemWF c') :
    MemWF (.mk a v
      (cs.map (fun x => if x.address = caddr then c' else x))) := by
  rw [memWF_iff] at hWF ⊢
  obtain ⟨hform, hpw, hkids⟩ := hWF
  have hcoord : ∀ x : Memref,
      (if x.address = caddr then c' else x).lastCoord = x.lastCoord := by
    intro x
    by_cases hx : x.address = caddr
    · rw [if_pos hx]
      exact lastCoord_eq_of_address_eq (by rw [haddr, hx])
    · rw [if_neg hx]
  refine ⟨?_, ?_, ?_⟩
  · intro y hy
    rw [List.mem_map] at hy
    obtain ⟨x, hx, rfl⟩ := hy
    by_cases hxa : x.address = caddr
    · rw [if_pos hxa]
      have hax : c'.address = x.address := by rw [haddr, hxa]
      rw [hax, lastCoord_eq_of_address_eq hax]
      exact hform x hx
    · rw [if_neg hxa]
      exact hform x hx
  · refine List.Pairwise.map _ ?_ hpw
    intro x y hxy
    rw [hcoord x, hcoord y]
    exact hxy
  · intro y hy
    rw [List.mem_map] at hy
    obtain ⟨x, hx, rfl⟩ := hy
    by_cases hxa : x.address = caddr
    · rw [if_pos hxa]; exact hc'
    · rw [if_neg hxa]; exact hkids x hx

/-- An in-place node operation that preserves well-formedness and the
node's address. -/
def WFPreserving {α : Type}
    (f : Memref → STrace → Option (Memref × α × STrace)) : Prop :=
  ∀ m s r, MemWF m → f m s = some r → MemWF r.1 ∧ r.1.address = m.address

theorem modifyAtAux_WF {α : Type}
    {f : Memref → STrace → Option (Memref × α × STrace)}
    (hf : WFPreserving f) :
    ∀ (path : List Int) (m : Memref) (s : STrace) (r : Memref × α × STrace),
      MemWF m → modifyAtAux f path m s = some r →
      MemWF r.1 ∧ r.1.address = m.address := by
  intro path
  induction path with
  | nil => intro m s r hWF h; exact hf m s r hWF h
  | cons k rest ih =>
    intro m s r hWF h
    unfold modifyAtAux at h
    cases hfind : m.children.find? (fun c => c.address = m.address ++ [k]) with
    | none => rw [hfind] at h; cases h
    | some c =>
      rw [hfind] at h
      dsimp only at h
      cases hrec : modifyAtAux f rest c s with
      | none => rw [hrec] at h; cases h
      | some q =>
        obtain ⟨c', aa, s₁⟩ := q
        rw [hrec] at h
        cases h
        have hcmem : c ∈ m.children := List.mem_of_find?_eq_some hfind
        cases m with
        | mk a v cs =>
          have hkid : MemWF c := by
            rw [memWF_iff] at hWF
            exact hWF.2.2 c hcmem
          obtain ⟨hc'WF, hc'addr⟩ := ih c s (c', aa, s₁) hkid hrec
          refine ⟨?_, rfl⟩
          exact mapReplace_WF hWF hc'addr hc'WF

theorem atPath_WF {α : Type} {s : STrace} {path : List Int}
    {f : Memref → STrace → Option (Memref × α × STrace)}
    (hf : WFPreserving f) {r : α × STrace}
    (hWF : MemWF s.memory) (h : s.atPath path f = some r) :
    MemWF r.2.memory ∧ r.2.memory.address = s.memory.address := by
  unfold STrace.atPath at h
  cases hm : modifyAtAux f path s.memory s with
  | none => rw [hm] at h; cases h
  | some q =>
    obtain ⟨root', aa, s₁⟩ := q
    rw [hm] at h
    cases h
    exact modifyAtAux_WF hf path s.memory s (root', aa, s₁) hWF hm

theorem memWF_value_irrel {a : List Int} {v v' : Option Value}
    {cs : List Memref} (h : MemWF (.mk a v cs)) : MemWF (.mk a v' cs) := by
  rw [memWF_iff] at h ⊢
  exact h

theorem setValueGo_WF :
    ∀ (fuel : Nat) (m : Memref) (t : SetTask) (s : STrace)
      (r : Memref × STrace), MemWF m → setValueGo fuel m t s = some r →
      MemWF r.1 ∧ r.1.address = m.address := by
  intro fuel
  induction fuel with
  | zero => intro m t s r _ h; cases h
  | succ f ih =>
    intro m t s r hWF h
    match t with
    | .one none =>
      cases h
      cases m with
      | mk a v cs => exact ⟨memWF_value_irrel hWF, rfl⟩
    | .one (some v0) =>
      unfold setValueGo at h
      split at h
      · split at h
        next hd el heq =>
          cases m with
          | mk a v cs =>
            have := ih (.mk a hd cs) (.pairs el) s r
              (memWF_value_irrel hWF) h
            exact ⟨this.1, this.2⟩
        next => cases h
      · cases h
        cases m with
        | mk a v cs => exact ⟨memWF_value_irrel hWF, rfl⟩
    | .pairs [] => cases h; exact ⟨hWF, rfl⟩
    | .pairs ((k, sub) :: rest) =>
      unfold setValueGo at h
      cases hca : m.childAddr (m.address ++ [k]) s with
      | none => rw [hca] at h; cases h
      | some q =>
        obtain ⟨c, m', s'⟩ := q
        rw [hca] at h
        dsimp only at h
        obtain ⟨hm'WF, hm'addr, hm'val, hcWF, hcaddr, hcmem⟩ :=
          childAddr_WF hWF rfl hca
        cases hsv : setValueGo f c (.one sub) s' with
        | none => rw [hsv] at h; cases h
        | some q2 =>
          obtain ⟨c', s''⟩ := q2
          rw [hsv] at h
          dsimp only at h
          obtain ⟨hc'WF, hc'addr⟩ := ih c (.one sub) s' (c', s'') hcWF hsv
          cases m' with
          | mk a1 v1 cs1 =>
            have hrepl : MemWF (.mk a1 v1
                (cs1.map (fun x => if x.address = c.address then c' else x))) :=
              mapReplace_WF hm'WF (by rw [hc'addr]) hc'WF
            have := ih _ (.pairs rest) s'' r hrepl h
            refine ⟨this.1, ?_⟩
            rw [this.2]
            simp only [Memref.address] at hm'addr ⊢
            exact hm'addr

/-- `node.child(k)` with an integer coordinate, keeping the updated node. -/
def childCoordWrap (k : Int) (m : Memref) (s : STrace) :
    Option (Memref × Unit × STrace) :=
  match m.childAddr (m.address ++ [k]) s with
  | none => none
  | some (_, m', s') => some (m', (), s')

/-- `node.append()`, keeping the updated node. -/
def appendWrap (m : Memref) (s : STrace) : Option (Memref × Unit × STrace) :=
  match m.appendOp s with
  | none => none
  | some (_, m', s') => some (m', (), s')

/-- `node.set_value(v)`, keeping the updated node. -/
def setValWrap (fuel : Nat) (v? : Option Value) (m : Memref) (s : STrace) :
    Option (Memref × Unit × STrace) :=
  match m.setValueOp fuel v? s with
  | none => none
  | some (m', s') => some (m', (), s')

theorem childCoordWrap_WFPreserving (k : Int) :
    WFPreserving (childCoordWrap k) := by
  intro m s r hWF h
  unfold childCoordWrap at h
  cases hca : m.childAddr (m.address ++ [k]) s with
  | none => rw [hca] at h; cases h
  | some q =>
    obtain ⟨c, m', s'⟩ := q
    rw [hca] at h
    cases h
    obtain ⟨hm'WF, hm'addr, _⟩ := childAddr_WF hWF rfl hca
    exact ⟨hm'WF, hm'addr⟩

theorem appendWrap_WFPreserving : WFPreserving appendWrap := by
  intro m s r hWF h
  unfold appendWrap Memref.appendOp at h
  cases hlast : m.children.getLast? with
  | none =>
    rw [hlast] at h
    cases hca : m.childAddr (m.address ++ [0]) s with
    | none => rw [hca] at h; cases h
    | some q =>
      obtain ⟨c, m', s'⟩ := q
      rw [hca] at h
      cases h
      obtain ⟨hm'WF, hm'addr, _⟩ := childAddr_WF hWF rfl hca
      exact ⟨hm'WF, hm'addr⟩
  | some c0 =>
    rw [hlast] at h
    dsimp only at h
    have hc0mem : c0 ∈ m.children := List.mem_of_getLast?_eq_some hlast
    have hc0addr : c0.address = m.address ++ [c0.lastCoord] := by
      cases m with
      | mk a v cs =>
        rw [memWF_iff] at hWF
        exact hWF.1 c0 hc0mem
    have htarget : c0.address.dropLast ++ [c0.lastCoord + 1] =
        m.address ++ [c0.lastCoord + 1] := by
      rw [hc0addr, List.dropLast_concat]
    cases hca : m.childAddr (c0.address.dropLast ++ [c0.lastCoord + 1]) s with
    | none => rw [hca] at h; cases h
    | some q =>
      obtain ⟨c, m', s'⟩ := q
      rw [hca] at h
      cases h
      obtain ⟨hm'WF, hm'addr, _⟩ := childAddr_WF hWF htarget hca
      exact ⟨hm'WF, hm'addr⟩

theorem setValWrap_WFPreserving (fuel : Nat) (v? : Option Value) :
    WFPreserving (setValWrap fuel v?) := by
  intro m s r hWF h
  unfold setValWrap Memref.setValueOp at h
  cases hs : setValueGo fuel m (.one v?) s with
  | none => rw [hs] at h; cases h
  | some q =>
    obtain ⟨m', s'⟩ := q
    rw [hs] at h
    cases h
    exact setValueGo_WF fuel m (.one v?) s (m', s') hWF hs

/-- The tree-mutating operations of the engine, as it invokes them: a
`child` call with an integer coordinate on the node at `path` (field
lookups, `lookup` steps and `as_memref`'s `.child(0)` all factor through
this), an `append`, a pointer addition `node + rhs` (performed at the
node's parent), and a `set_value`. -/
inductive MemOp where
  | childAt (path : List Int) (k : Int)
  | append (path : List Int)
  | ptrAdd (path : List Int) (rhs : Int)
  | setVal (fuel : Nat) (path : List Int) (v? : Option Value)

/-- The `Memref.__add__` body as run on the node at a path: read the
child's stored address at the parent and call `child` on the shifted
address. -/
def ptrAddWrap (k rhs : Int) (m : Memref) (s : STrace) :
    Option (Memref × Unit × STrace) :=
  match m.children.find? (fun c => c.address = m.address ++ [k]) with
  | none => none
  | some child =>
    match m.childAddr (child.address.dropLast ++ [child.lastCoord + rhs]) s with
    | none => none
    | some (_, m', s') => some (m', (), s')

/-- Execute one engine operation against the trace state. -/
def applyMemOp (s : STrace) : MemOp → Option STrace
  | .childAt path k => (s.atPath path (childCoordWrap k)).map Prod.snd
  | .append path => (s.atPath path appendWrap).map Prod.snd
  | .setVal fuel path v? => (s.atPath path (setValWrap fuel v?)).map Prod.snd
  | .ptrAdd path rhs =>
    match path.getLast? with
    | none => none
    | some k => (s.atPath path.dropLast (ptrAddWrap k rhs)).map Prod.snd

/-- Execute a sequence of engine operations. -/
def runMemOps : List MemOp → STrace → Option STrace
  | [], s => some s
  | op :: ops, s =>
    match applyMemOp s op with
    | none => none
    | some s' => runMemOps ops s'

theorem ptrAddWrap_WFPreserving (k rhs : Int) :
    WFPreserving (ptrAddWrap k rhs) := by
  intro m s r hWF h
  unfold ptrAddWrap at h
  cases hfind : m.children.find? (fun c => c.address = m.address ++ [k]) with
  | none => rw [hfind] at h; cases h
  | some child =>
    rw [hfind] at h
    dsimp only at h
    have hcmem : child ∈ m.children := List.mem_of_find?_eq_some hfind
    have hcaddr : child.address = m.address ++ [child.lastCoord] := by
      cases m with
      | mk a v cs =>
        rw [memWF_iff] at hWF
        exact hWF.1 child hcmem
    have htarget : child.address.dropLast ++ [child.lastCoord + rhs] =
        m.address ++ [child.lastCoord + rhs] := by
      rw [hcaddr, List.dropLast_concat]
    cases hca : m.childAddr
        (child.address.dropLast ++ [child.lastCoord + rhs]) s with
    | none => rw [hca] at h; cases h
    | some q =>
      obtain ⟨c, m', s'⟩ := q
      rw [hca] at h
      cases h
      obtain ⟨hm'WF, hm'addr, _⟩ := childAddr_WF hWF htarget hca
      exact ⟨hm'WF, hm'addr⟩

theorem applyMemOp_WF {s : STrace} {op : MemOp} {s' : STrace}
    (hWF : MemWF s.memory) (h : applyMemOp s op = some s') :
    MemWF s'.memory ∧ s'.memory.address = s.memory.address := by
  match op with
  | .childAt path k =>
    unfold applyMemOp at h
    dsimp only at h
    cases hp : s.atPath path (childCoordWrap k) with
    | none => rw [hp] at h; cases h
    | some q =>
      rw [hp] at h
      cases h
      exact atPath_WF (childCoordWrap_WFPreserving k) hWF hp
  | .append path =>
    unfold applyMemOp at h
    dsimp only at h
    cases hp : s.atPath path appendWrap with
    | none => rw [hp] at h; cases h
    | some q =>
      rw [hp] at h
      cases h
      exact atPath_WF appendWrap_WFPreserving hWF hp
  | .setVal fuel path v? =>
    unfold applyMemOp at h
    dsimp only at h
    cases hp : s.atPath path (setValWrap fuel v?) with
    | none => rw [hp] at h; cases h
    | some q =>
      rw [hp] at h
      cases h
      exact atPath_WF (setValWrap_WFPreserving fuel v?) hWF hp
  | .ptrAdd path rhs =>
    unfold applyMemOp at h
    dsimp only at h
    cases hlast : path.getLast? with
    | none => rw [hlast] at h; cases h
    | some k =>
      rw [hlast] at h
      dsimp only at h
      cases hp : s.atPath path.dropLast (ptrAddWrap k rhs) with
      | none => rw [hp] at h; cases h
      | some q =>
        rw [hp] at h
        cases h
        exact atPath_WF (ptrAddWrap_WFPreserving k rhs) hWF hp

theorem runMemOps_WF :
    ∀ (ops : List MemOp) (s : STrace) (s' : STrace), MemWF s.memory →
      runMemOps ops s = some s' →
      MemWF s'.memory ∧ s'.memory.address = s.memory.address := by
  intro ops
  induction ops with
  | nil => intro s s' hWF h; cases h; exact ⟨hWF, rfl⟩
  | cons op rest ih =>
    intro s s' hWF h
    unfold runMemOps at h
    cases ha : applyMemOp s op with
    | none => rw [ha] at h; cases h
    | some s₁ =>
      rw [ha] at h
      obtain ⟨h1, h2⟩ := applyMemOp_WF hWF ha
      obtain ⟨h3, h4⟩ := ih s₁ s' h1 h
      exact ⟨h3, by rw [h4, h2]⟩

/-- Claim C4: after any sequence of engine operations starting from
`Trace.__init__`'s memory, the root's address is the empty tuple and every
reachable node satisfies the tree invariants (each child's address is its
parent's address extended by one integer, and children are sorted strictly
ascending by trailing coordinate); moreover, looking up a missing child
address inserts a fresh `Memref` holding a new opaque Value (with the
current uid) while preserving these properties. -/
theorem memory_tree_invariants :
    (∀ (ops : List MemOp) (s' : STrace), runMemOps ops initTrace = some s' →
      MemWF s'.memory ∧ s'.memory.address = []) ∧
    (∀ (m : Memref) (k : Int) (s : STrace) (c m' : Memref) (s' : STrace),
      MemWF m →
      (∀ c0 ∈ m.children, ¬c0.address = m.address ++ [k]) →
      m.childAddr (m.address ++ [k]) s = some (c, m', s') →
      c = .mk (m.address ++ [k])
        (some (.mk (.opq s.counter) false none false)) [] ∧
      c ∈ m'.children ∧ s'.counter = s.counter + 1 ∧
      MemWF m' ∧ m'.address = m.address) := by
  constructor
  · intro ops s' h
    have hWF0 : MemWF initTrace.memory :=
      .mk [] none [] (by intro c hc; cases hc) List.Pairwise.nil
        (by intro c hc; cases hc)
    exact runMemOps_WF ops initTrace s' hWF0 h
  · intro m k s c m' s' hWF hmiss h
    exact childAddr_alloc_on_read hWF hmiss h

def cC4 : Memref := .mk [2] (some (.mk (.opq 0) false none false)) []

def sC4 : STrace := ⟨1, .mk [] none [cC4], [], [⟨.opq 0, false⟩]⟩

def m0C4 : Memref := .mk [] none []

def sC4b : STrace := ⟨1, .mk [] none [], [], [⟨.opq 0, false⟩]⟩

theorem memory_tree_invariants_witness :
    runMemOps [.childAt [] 2] initTrace = some sC4 ∧
    (MemWF sC4.memory ∧ sC4.memory.address = []) ∧
    m0C4.childAddr (m0C4.address ++ [2]) initTrace =
      some (cC4, .mk [] none [cC4], sC4b) ∧
    (cC4 = .mk (m0C4.address ++ [2])
        (some (.mk (.opq initTrace.counter) false none false)) [] ∧
      cC4 ∈ (Memref.mk [] none [cC4]).children ∧
      sC4b.counter = initTrace.counter + 1 ∧
      MemWF (Memref.mk [] none [cC4]) ∧
      (Memref.mk [] none [cC4]).address = m0C4.address) := by
  refine ⟨rfl, memory_tree_invariants.1 [.childAt [] 2] sC4 rfl, rfl, ?_⟩
  exact memory_tree_invariants.2 m0C4 2 initTrace cC4 (.mk [] none [cC4]) sC4b
    (.mk [] none [] (by intro c0 hc; cases hc) List.Pairwise.nil
      (by intro c0 hc; cases hc))
    (by intro c0 hc; cases hc) rfl
